import Mathlib

/-!
Verification of the MMIO trace analyzers (`scripty.py` and `scripty2.py`).

The embedding translates the two Python analysis passes into Lean:

* `parse_log` — the line normalizer shared by both scripts (text in, list of
  `Entry` out).  Python's `int(s, 16)` builtin is modelled by `pyIntHex` for
  unsigned hexadecimal literals (optional `0x`/`0X` prefix); the sign and
  digit-underscore forms accepted by Python do not occur in register traces
  and are not modelled.
* `analyze_log` — the value-change / pairing pass of `scripty.py`
  (`timeline`, `all_changes`, `pairs_0x0_0x4`, `current_state`).
* `analyze_registers` — the read-before-write / device-controlled pass of
  `scripty2.py`.

Python dictionaries keyed by register number are modelled as functions
`Nat → Option _` (lookup semantics); Python sets as functions `Nat → Bool`.
The insertion order of dictionary keys is tracked only where a claim needs
it (`state_keys` mirrors the key set of `current_state`).

Declarative specification functions (suffix `Spec`, and the helpers built on
`traceMap`) restate what the loops compute in terms of positions in the
trace; the main theorems prove the loop states equal to them.
-/

/-- One normalized access event, as produced by `parse_log`: the raw
operation token (not validated), offset, value and length. -/
structure Entry where
  op : String
  offset : Nat
  value : Nat
  length : Nat
deriving DecidableEq, Repr

/-- Timeline record of `analyze_log` (`scripty.py`). -/
structure TimelineEntry where
  index : Nat
  op : String
  offset : Nat
  value : Nat
  old_value : Option Nat
  changed : Bool
deriving DecidableEq, Repr

/-- Change record of `analyze_log` (`scripty.py`): one entry of
`all_changes[offset]`. -/
structure ChangeRec where
  index : Nat
  old : Option Nat
  new : Nat
deriving DecidableEq, Repr

/-- Pair record of `analyze_log` (`scripty.py`): one entry of
`pairs_0x0_0x4`. -/
structure PairRec where
  index : Nat
  reg_select : Nat
  data_value : Nat
  data_changed : Bool
deriving DecidableEq, Repr

/-- Read-before-write record of `analyze_registers` (`scripty2.py`); `key`
is the index value (indexed scheme) or the offset (direct scheme). -/
structure RBWRec where
  key : Nat
  value : Nat
  line : Nat
deriving DecidableEq, Repr

/-- Device-controlled change record of `analyze_registers`
(`scripty2.py`). -/
structure DCRec where
  key : Nat
  old_value : Option Nat
  new_value : Nat
  line : Nat
deriving DecidableEq, Repr

/-- Per-key tracking state of `analyze_registers`: the`indexed_state` /
`direct_state` dictionary values of `scripty2.py`. -/
structure RegState where
  last_read : Option Nat
  write_since_read : Bool
deriving DecidableEq, Repr

/-! ### The normalizer (`parse_log`, identical in both scripts) -/

/-- Hexadecimal digit value of a character, as accepted by Python
`int(_, 16)`. -/
def hexDigitVal (c : Char) : Option Nat :=
  if '0' ≤ c ∧ c ≤ '9' then some (c.toNat - '0'.toNat)
  else if 'a' ≤ c ∧ c ≤ 'f' then some (c.toNat - 'a'.toNat + 10)
  else if 'A' ≤ c ∧ c ≤ 'F' then some (c.toNat - 'A'.toNat + 10)
  else none

/-- Accumulating base-16 evaluation of a digit string. -/
def hexValAux : Nat → List Char → Option Nat
  | acc, [] => some acc
  | acc, c :: cs =>
    match hexDigitVal c with
    | some d => hexValAux (16 * acc + d) cs
    | none => none

/-- Strip leading and trailing whitespace from a character list (Python
`str.strip`). -/
def pyStrip (s : List Char) : List Char :=
  ((s.dropWhile Char.isWhitespace).reverse.dropWhile Char.isWhitespace).reverse

/-- Python `int(s, 16)` on an unsigned hexadecimal literal: strip
whitespace, drop an optional `0x`/`0X` prefix, then require a nonempty
all-hex-digit string. -/
def pyIntHex (s : List Char) : Option Nat :=
  let t := pyStrip s
  let t := if "0x".toList.isPrefixOf t ∨ "0X".toList.isPrefixOf t then t.drop 2 else t
  match t with
  | [] => none
  | _ => hexValAux 0 t

/-- Python `str.split()` with no argument: split on whitespace runs and
drop empty pieces. -/
def pyTokens (s : List Char) : List (List Char) :=
  (s.splitOnP Char.isWhitespace).filter (fun t => t ≠ [])

/-- Python `text.split(sep)` for a single-character separator: split at
every occurrence, keeping empty pieces. -/
def pySplitLines (s : List Char) : List (List Char) :=
  s.splitOnP (fun c => c = '\n')

/-- One iteration of the `parse_log` loop: `none` means the line is
skipped (header, dashed rule, blank, fewer than four fields, or a numeric
field that fails to parse); otherwise the extracted entry. -/
def parseLine (line : List Char) : Option Entry :=
  if "Operation".toList.isPrefixOf line ∨ "----".toList.isPrefixOf line ∨ pyStrip line = [] then
    none
  else
    match pyTokens line with
    | op :: o :: v :: l :: _ =>
      match pyIntHex o, pyIntHex v, pyIntHex l with
      | some ov, some vv, some lv => some ⟨String.mk op, ov, vv, lv⟩
      | _, _, _ => none
    | _ => none

/-- The accumulation loop of `parse_log` over the lines. -/
def parseLogAux : List (List Char) → List Entry
  | [] => []
  | line :: rest =>
    match parseLine line with
    | some e => e :: parseLogAux rest
    | none => parseLogAux rest

/-- The `parse_log` function of `scripty.py` / `scripty2.py`:
`log_text.strip().split('\n')`, then the per-line extraction loop. -/
def parse_log (log_text : String) : List Entry :=
  parseLogAux (pySplitLines (pyStrip log_text.toList))

/-! ### The `analyze_log` pass of `scripty.py` -/

/-- The loop state of `analyze_log`.  `current_state` and `all_changes`
model the Python dictionaries (`none` / `[]` for an absent key);
`state_keys` tracks the insertion-ordered key set of `current_state`. -/
structure LogState where
  current_state : Nat → Option Nat
  state_keys : List Nat
  all_changes : Nat → List ChangeRec
  pairs : List PairRec
  last_0x0_write : Option (Nat × Nat)
  timeline : List TimelineEntry

/-- One iteration of the `analyze_log` loop at position `i`. -/
def stepLog (s : LogState) (i : Nat) (e : Entry) : LogState :=
  let old := s.current_state e.offset
  let state_keys := if e.offset ∈ s.state_keys then s.state_keys else s.state_keys ++ [e.offset]
  let changed : Bool := if e.op = "Write" then decide (old ≠ some e.value) else false
  let timeline := s.timeline ++ [⟨i, e.op, e.offset, e.value, old, changed⟩]
  if e.op = "Write" then
    let all_changes := fun k =>
      if k = e.offset ∧ changed = true then s.all_changes k ++ [⟨i, old, e.value⟩]
      else s.all_changes k
    let current_state := fun k => if k = e.offset then some e.value else s.current_state k
    if e.offset = 0 then
      { current_state, state_keys, all_changes, pairs := s.pairs,
        last_0x0_write := some (i, e.value), timeline }
    else if e.offset = 4 then
      match s.last_0x0_write with
      | some p =>
        { current_state, state_keys, all_changes,
          pairs := s.pairs ++ [⟨i, p.2, e.value, changed⟩],
          last_0x0_write := some p, timeline }
      | none =>
        { current_state, state_keys, all_changes, pairs := s.pairs,
          last_0x0_write := none, timeline }
    else
      { current_state, state_keys, all_changes, pairs := s.pairs,
        last_0x0_write := s.last_0x0_write, timeline }
  else
    { s with state_keys := state_keys, timeline := timeline }

/-- The `analyze_log` loop with explicit position counter. -/
def runLogAux : LogState → Nat → List Entry → LogState
  | s, _, [] => s
  | s, i, e :: es => runLogAux (stepLog s i e) (i + 1) es

/-- Initial state of `analyze_log`. -/
def initLogState : LogState :=
  { current_state := fun _ => none, state_keys := [], all_changes := fun _ => [],
    pairs := [], last_0x0_write := none, timeline := [] }

/-- The `analyze_log` function of `scripty.py`; the returned state holds
the four results `timeline`, `all_changes`, `pairs_0x0_0x4`,
`current_state`. -/
def analyze_log (entries : List Entry) : LogState :=
  runLogAux initLogState 0 entries

/-! ### The `analyze_registers` pass of `scripty2.py` -/

/-- The loop state of `analyze_registers`.  Sets (`indexed_written`,
`reported_indexed_rbw`, …) are membership functions, the two state
dictionaries are lookup functions. -/
structure RegsState where
  current_index : Option Nat
  indexed_written : Nat → Bool
  direct_written : Nat → Bool
  rbw_indexed : List RBWRec
  rbw_direct : List RBWRec
  reported_indexed : Nat → Bool
  reported_direct : Nat → Bool
  indexed_state : Nat → Option RegState
  direct_state : Nat → Option RegState
  dc_indexed : List DCRec
  dc_direct : List DCRec

/-- One iteration of the `analyze_registers` loop at position `i`. -/
def stepRegs (s : RegsState) (i : Nat) (e : Entry) : RegsState :=
  if e.offset = 0 then
    if e.op = "Write" then { s with current_index := some e.value } else s
  else if e.offset = 4 then
    match s.current_index with
    | none => s
    | some k =>
      if e.op = "Read" then
        let s1 :=
          if s.indexed_written k = false ∧ s.reported_indexed k = false then
            { s with rbw_indexed := s.rbw_indexed ++ [⟨k, e.value, i⟩],
                     reported_indexed := fun x => if x = k then true else s.reported_indexed x }
          else s
        let s2 :=
          match s1.indexed_state k with
          | some st =>
            if st.write_since_read = false ∧ st.last_read ≠ some e.value then
              { s1 with dc_indexed := s1.dc_indexed ++ [(⟨k, st.last_read, e.value, i⟩ : DCRec)] }
            else s1
          | none => s1
        { s2 with indexed_state := fun x => if x = k then some (⟨some e.value, false⟩ : RegState) else s2.indexed_state x }
      else if e.op = "Write" then
        { s with indexed_written := fun x => if x = k then true else s.indexed_written x,
                 indexed_state := fun x =>
                   if x = k then
                     match s.indexed_state k with
                     | some st => some ⟨st.last_read, true⟩
                     | none => some ⟨none, true⟩
                   else s.indexed_state x }
      else s
  else
    if e.op = "Read" then
      let s1 :=
        if s.direct_written e.offset = false ∧ s.reported_direct e.offset = false then
          { s with rbw_direct := s.rbw_direct ++ [⟨e.offset, e.value, i⟩],
                   reported_direct := fun x => if x = e.offset then true else s.reported_direct x }
        else s
      let s2 :=
        match s1.direct_state e.offset with
        | some st =>
          if st.write_since_read = false ∧ st.last_read ≠ some e.value then
            { s1 with dc_direct := s1.dc_direct ++ [(⟨e.offset, st.last_read, e.value, i⟩ : DCRec)] }
          else s1
        | none => s1
      { s2 with direct_state := fun x => if x = e.offset then some (⟨some e.value, false⟩ : RegState) else s2.direct_state x }
    else if e.op = "Write" then
      { s with direct_written := fun x => if x = e.offset then true else s.direct_written x,
               direct_state := fun x =>
                 if x = e.offset then
                   match s.direct_state e.offset with
                   | some st => some ⟨st.last_read, true⟩
                   | none => some ⟨none, true⟩
                 else s.direct_state x }
    else s

/-- The `analyze_registers` loop with explicit position counter. -/
def runRegsAux : RegsState → Nat → List Entry → RegsState
  | s, _, [] => s
  | s, i, e :: es => runRegsAux (stepRegs s i e) (i + 1) es

/-- Initial state of `analyze_registers`. -/
def initRegsState : RegsState :=
  { current_index := none, indexed_written := fun _ => false, direct_written := fun _ => false,
    rbw_indexed := [], rbw_direct := [],
    reported_indexed := fun _ => false, reported_direct := fun _ => false,
    indexed_state := fun _ => none, direct_state := fun _ => none,
    dc_indexed := [], dc_direct := [] }

/-- The `analyze_registers` function of `scripty2.py`; the returned state
holds the four result lists and the tracking tables. -/
def analyze_registers (entries : List Entry) : RegsState :=
  runRegsAux initRegsState 0 entries

/-- The by-key sort applied by `write_report` of `scripty2.py`
(`sorted(..., key=lambda x: x['index'])` resp. `x['offset']`); Python
`sorted` is a stable ascending sort. -/
def sortRbwByKey (l : List RBWRec) : List RBWRec :=
  l.mergeSort (fun a b => a.key ≤ b.key)

/-! ### Positional specification combinator

`traceMap f es` visits each position `j` of the trace once, in order, and
gives `f` the strict prefix before `j`, the position, and the entry there.
All declarative specifications below are instances of it. -/

/-- Apply `f` to every position of the trace (prefix, position, entry),
collecting the `some` results in trace order. -/
def traceMap (f : List Entry → Nat → Entry → Option α) (es : List Entry) : List α :=
  (List.range es.length).filterMap (fun j =>
    match es[j]? with
    | some e => f (es.take j) j e
    | none => none)

/-! ### Declarative specifications for `analyze_log` -/

/-- The value most recently written to offset `k` (the "current value" of
the timeline view), or `none` if `k` was never written. -/
def lastWrittenVal (es : List Entry) (k : Nat) : Option Nat :=
  ((es.filter (fun e => e.op = "Write" ∧ e.offset = k)).getLast?).map (fun e => e.value)

/-- Position and value of the last write to the index offset `0x0`. -/
def last0Write (es : List Entry) : Option (Nat × Nat) :=
  (traceMap (fun _ j e => if e.op = "Write" ∧ e.offset = 0 then some (j, e.value) else none) es).getLast?

/-- The change sequence the claim describes for key `k`: the writes to `k`
whose value differs from the last value previously written to `k` (absent
before the first write), in trace order. -/
def changesSpec (es : List Entry) (k : Nat) : List ChangeRec :=
  traceMap (fun pre j e =>
    if e.op = "Write" ∧ e.offset = k ∧ lastWrittenVal pre k ≠ some e.value then
      some ⟨j, lastWrittenVal pre k, e.value⟩
    else none) es

/-- The pair records with per-raw-offset change detection: a pair is
emitted at each write to the data offset `0x4` once an index write exists,
and `data_changed` compares against the last value written to offset `0x4`
itself (whatever index it was written under). -/
def pairsOffsetSpec (es : List Entry) : List PairRec :=
  traceMap (fun pre j e =>
    if e.op = "Write" ∧ e.offset = 4 then
      match last0Write pre with
      | some p => some ⟨j, p.2, e.value, decide (lastWrittenVal pre 4 ≠ some e.value)⟩
      | none => none
    else none) es

/-! ### Declarative specifications for `analyze_registers` -/

/-- The index register value selected at a given point: value of the last
write to offset `0x0` in the prefix (`current_index` of `scripty2.py`). -/
def idxSel (es : List Entry) : Option Nat :=
  (last0Write es).map (fun p => p.2)

/-- Positions and values of the reads of indexed key `k`: reads of offset
`0x4` while the selected index is `k`. -/
def indexedReads (es : List Entry) (k : Nat) : List (Nat × Nat) :=
  traceMap (fun pre j e =>
    if e.op = "Read" ∧ e.offset = 4 ∧ idxSel pre = some k then some (j, e.value) else none) es

/-- Positions and values of the writes to indexed key `k`: writes to offset
`0x4` while the selected index is `k`. -/
def indexedWrites (es : List Entry) (k : Nat) : List (Nat × Nat) :=
  traceMap (fun pre j e =>
    if e.op = "Write" ∧ e.offset = 4 ∧ idxSel pre = some k then some (j, e.value) else none) es

/-- Positions and values of the reads of direct key `k` (an offset other
than the two addressing offsets). -/
def directReads (es : List Entry) (k : Nat) : List (Nat × Nat) :=
  traceMap (fun _ j e =>
    if e.op = "Read" ∧ e.offset = k ∧ ¬k = 0 ∧ ¬k = 4 then some (j, e.value) else none) es

/-- Positions and values of the writes to direct key `k`. -/
def directWrites (es : List Entry) (k : Nat) : List (Nat × Nat) :=
  traceMap (fun _ j e =>
    if e.op = "Write" ∧ e.offset = k ∧ ¬k = 0 ∧ ¬k = 4 then some (j, e.value) else none) es

/-- What the per-key tracking state must be after a trace, stated from the
read/write position lists: `last_read` is the value of the last read,
`write_since_read` says some write comes after the last read (always true
when a write exists but no read does); no state exists before the first
read or write of the key. -/
def stateSpec (reads writes : List (Nat × Nat)) : Option RegState :=
  match reads.getLast? with
  | some p => some ⟨some p.2, !(writes.all (fun q => decide (q.1 ≤ p.1)))⟩
  | none => if writes.isEmpty then none else some ⟨none, true⟩

/-- Specification of `indexed_state` for key `k`. -/
def indexedStateSpec (es : List Entry) (k : Nat) : Option RegState :=
  stateSpec (indexedReads es k) (indexedWrites es k)

/-- Specification of `direct_state` for key `k`. -/
def directStateSpec (es : List Entry) (k : Nat) : Option RegState :=
  stateSpec (directReads es k) (directWrites es k)

/-- Read-before-write records for the indexed scheme, as the claim states
them: at the first read of key `k` (no earlier read of `k`) that no write
to `k` precedes, a record with that read's value and line is emitted. -/
def rbwSpecIndexed (es : List Entry) : List RBWRec :=
  traceMap (fun pre j e =>
    if e.op = "Read" ∧ e.offset = 4 then
      match idxSel pre with
      | some k =>
        if (indexedReads pre k).isEmpty ∧ (indexedWrites pre k).isEmpty then
          some ⟨k, e.value, j⟩
        else none
      | none => none
    else none) es

/-- Read-before-write records for the direct scheme. -/
def rbwSpecDirect (es : List Entry) : List RBWRec :=
  traceMap (fun pre j e =>
    if e.op = "Read" ∧ ¬e.offset = 0 ∧ ¬e.offset = 4 then
      if (directReads pre e.offset).isEmpty ∧ (directWrites pre e.offset).isEmpty then
        some ⟨e.offset, e.value, j⟩
      else none
    else none) es

/-- Device-controlled records for the indexed scheme, as the claim states
them: at a read of key `k` whose value differs from the immediately
preceding read of `k`, with no write to `k` after that preceding read, a
record with both values is emitted.  Writes to other keys in between are
irrelevant. -/
def dcSpecIndexed (es : List Entry) : List DCRec :=
  traceMap (fun pre j e =>
    if e.op = "Read" ∧ e.offset = 4 then
      match idxSel pre with
      | some k =>
        match (indexedReads pre k).getLast? with
        | some p =>
          if ((indexedWrites pre k).all (fun q => decide (q.1 ≤ p.1))) ∧ ¬p.2 = e.value then
            some ⟨k, some p.2, e.value, j⟩
          else none
        | none => none
      | none => none
    else none) es

/-- Device-controlled records for the direct scheme. -/
def dcSpecDirect (es : List Entry) : List DCRec :=
  traceMap (fun pre j e =>
    if e.op = "Read" ∧ ¬e.offset = 0 ∧ ¬e.offset = 4 then
      match (directReads pre e.offset).getLast? with
      | some p =>
        if ((directWrites pre e.offset).all (fun q => decide (q.1 ≤ p.1))) ∧ ¬p.2 = e.value then
          some ⟨e.offset, some p.2, e.value, j⟩
        else none
      | none => none
    else none) es

/-- The change detection the disputed claim C1 describes: the data value
most recently written under the same `reg_select` key before position `j`. -/
def lastKeyedDataVal (es : List Entry) (j k : Nat) : Option Nat :=
  ((indexedWrites (es.take j) k).getLast?).map (fun p => p.2)

/-! ### Lemmas about `traceMap` -/

theorem traceMap_nil (f : List Entry → Nat → Entry → Option α) : traceMap f [] = [] := rfl

theorem traceMap_append_one (f : List Entry → Nat → Entry → Option α) (pre : List Entry) (e : Entry) :
    traceMap f (pre ++ [e]) = traceMap f pre ++ (f pre pre.length e).toList := by
  unfold traceMap
  have hlen : (pre ++ [e]).length = pre.length + 1 := by simp
  rw [hlen, List.range_succ, List.filterMap_append]
  congr 1
  · apply List.filterMap_congr
    intro j hj
    have hj' : j < pre.length := List.mem_range.mp hj
    rw [List.getElem?_append_left hj', List.take_append_of_le_length (Nat.le_of_lt hj')]
  · have h1 : (pre ++ [e])[pre.length]? = some e := by
      rw [List.getElem?_append_right (Nat.le_refl _)]
      simp
    have h2 : (pre ++ [e]).take pre.length = pre := by
      rw [List.take_append_of_le_length (Nat.le_refl _), List.take_length]
    rw [List.filterMap_cons, h1, h2]
    cases hfa : f pre pre.length e <;> simp [hfa]

theorem traceMap_mem {f : List Entry → Nat → Entry → Option α} {es : List Entry} {a : α} :
    a ∈ traceMap f es ↔ ∃ j e, j < es.length ∧ es[j]? = some e ∧ f (es.take j) j e = some a := by
  unfold traceMap
  rw [List.mem_filterMap]
  constructor
  · rintro ⟨j, hj, hfa⟩
    have hjl : j < es.length := List.mem_range.mp hj
    obtain ⟨e, he⟩ : ∃ e, es[j]? = some e := ⟨es[j], List.getElem?_eq_getElem hjl⟩
    refine ⟨j, e, hjl, he, ?_⟩
    rwa [he] at hfa
  · rintro ⟨j, e, hjl, he, hf⟩
    exact ⟨j, List.mem_range.mpr hjl, by rw [he]; exact hf⟩

theorem traceMap_take_subset (f : List Entry → Nat → Entry → Option α) (es : List Entry) (n : Nat)
    {a : α} (h : a ∈ traceMap f (es.take n)) : a ∈ traceMap f es := by
  rw [traceMap_mem] at h ⊢
  obtain ⟨j, e, hj, he, hf⟩ := h
  have hjn : j < n := lt_of_lt_of_le hj (by simp [List.length_take])
  have hjes : j < es.length := by
    have := List.length_take n es
    omega
  refine ⟨j, e, hjes, ?_, ?_⟩
  · rwa [List.getElem?_take, if_pos hjn] at he
  · rwa [List.take_take, Nat.min_eq_left (Nat.le_of_lt hjn)] at hf

/-! ### Snoc equations for the specification functions -/

theorem lastWrittenVal_append (pre : List Entry) (e : Entry) (k : Nat) :
    lastWrittenVal (pre ++ [e]) k =
      if e.op = "Write" ∧ e.offset = k then some e.value else lastWrittenVal pre k := by
  unfold lastWrittenVal
  rw [List.filter_append]
  by_cases h : e.op = "Write" ∧ e.offset = k
  · simp [h]
  · simp [h]

theorem last0Write_append (pre : List Entry) (e : Entry) :
    last0Write (pre ++ [e]) =
      if e.op = "Write" ∧ e.offset = 0 then some (pre.length, e.value) else last0Write pre := by
  unfold last0Write
  rw [traceMap_append_one]
  by_cases h : e.op = "Write" ∧ e.offset = 0 <;> simp [h]

theorem idxSel_append (pre : List Entry) (e : Entry) :
    idxSel (pre ++ [e]) =
      if e.op = "Write" ∧ e.offset = 0 then some e.value else idxSel pre := by
  unfold idxSel
  rw [last0Write_append]
  by_cases h : e.op = "Write" ∧ e.offset = 0 <;> simp [h]

theorem changesSpec_append (pre : List Entry) (e : Entry) (k : Nat) :
    changesSpec (pre ++ [e]) k = changesSpec pre k ++
      (if e.op = "Write" ∧ e.offset = k ∧ lastWrittenVal pre k ≠ some e.value then
        [⟨pre.length, lastWrittenVal pre k, e.value⟩] else []) := by
  unfold changesSpec
  rw [traceMap_append_one]
  by_cases h : e.op = "Write" ∧ e.offset = k ∧ lastWrittenVal pre k ≠ some e.value <;> simp [h]

theorem pairsOffsetSpec_append (pre : List Entry) (e : Entry) :
    pairsOffsetSpec (pre ++ [e]) = pairsOffsetSpec pre ++
      (if e.op = "Write" ∧ e.offset = 4 then
        match last0Write pre with
        | some p => [⟨pre.length, p.2, e.value, decide (lastWrittenVal pre 4 ≠ some e.value)⟩]
        | none => []
      else []) := by
  unfold pairsOffsetSpec
  rw [traceMap_append_one]
  by_cases h : e.op = "Write" ∧ e.offset = 4
  · simp only [h, if_true, and_true]
    cases last0Write pre <;> simp
  · simp [h]

theorem indexedReads_append (pre : List Entry) (e : Entry) (k : Nat) :
    indexedReads (pre ++ [e]) k = indexedReads pre k ++
      (if e.op = "Read" ∧ e.offset = 4 ∧ idxSel pre = some k then [(pre.length, e.value)] else []) := by
  unfold indexedReads
  rw [traceMap_append_one]
  by_cases h : e.op = "Read" ∧ e.offset = 4 ∧ idxSel pre = some k <;> simp [h]

theorem indexedWrites_append (pre : List Entry) (e : Entry) (k : Nat) :
    indexedWrites (pre ++ [e]) k = indexedWrites pre k ++
      (if e.op = "Write" ∧ e.offset = 4 ∧ idxSel pre = some k then [(pre.length, e.value)] else []) := by
  unfold indexedWrites
  rw [traceMap_append_one]
  by_cases h : e.op = "Write" ∧ e.offset = 4 ∧ idxSel pre = some k <;> simp [h]

theorem directReads_append (pre : List Entry) (e : Entry) (k : Nat) :
    directReads (pre ++ [e]) k = directReads pre k ++
      (if e.op = "Read" ∧ e.offset = k ∧ ¬k = 0 ∧ ¬k = 4 then [(pre.length, e.value)] else []) := by
  unfold directReads
  rw [traceMap_append_one]
  by_cases h : e.op = "Read" ∧ e.offset = k ∧ ¬k = 0 ∧ ¬k = 4 <;> simp [h]

theorem directWrites_append (pre : List Entry) (e : Entry) (k : Nat) :
    directWrites (pre ++ [e]) k = directWrites pre k ++
      (if e.op = "Write" ∧ e.offset = k ∧ ¬k = 0 ∧ ¬k = 4 then [(pre.length, e.value)] else []) := by
  unfold directWrites
  rw [traceMap_append_one]
  by_cases h : e.op = "Write" ∧ e.offset = k ∧ ¬k = 0 ∧ ¬k = 4 <;> simp [h]

theorem rbwSpecIndexed_append (pre : List Entry) (e : Entry) :
    rbwSpecIndexed (pre ++ [e]) = rbwSpecIndexed pre ++
      (if e.op = "Read" ∧ e.offset = 4 then
        match idxSel pre with
        | some k =>
          if (indexedReads pre k).isEmpty ∧ (indexedWrites pre k).isEmpty then
            [⟨k, e.value, pre.length⟩] else []
        | none => []
      else []) := by
  unfold rbwSpecIndexed
  rw [traceMap_append_one]
  by_cases h : e.op = "Read" ∧ e.offset = 4
  · simp only [h, if_true, and_true]
    rcases hsel : idxSel pre with _ | k
    · simp
    · simp only
      split <;> simp
  · simp [h]

theorem rbwSpecDirect_append (pre : List Entry) (e : Entry) :
    rbwSpecDirect (pre ++ [e]) = rbwSpecDirect pre ++
      (if e.op = "Read" ∧ ¬e.offset = 0 ∧ ¬e.offset = 4 then
        if (directReads pre e.offset).isEmpty ∧ (directWrites pre e.offset).isEmpty then
          [⟨e.offset, e.value, pre.length⟩] else []
      else []) := by
  unfold rbwSpecDirect
  rw [traceMap_append_one]
  by_cases h : e.op = "Read" ∧ ¬e.offset = 0 ∧ ¬e.offset = 4
  · rw [if_pos h, if_pos h]
    split <;> simp
  · simp [h]

theorem dcSpecIndexed_append (pre : List Entry) (e : Entry) :
    dcSpecIndexed (pre ++ [e]) = dcSpecIndexed pre ++
      (if e.op = "Read" ∧ e.offset = 4 then
        match idxSel pre with
        | some k =>
          match (indexedReads pre k).getLast? with
          | some p =>
            if ((indexedWrites pre k).all (fun q => decide (q.1 ≤ p.1))) ∧ ¬p.2 = e.value then
              [⟨k, some p.2, e.value, pre.length⟩] else []
          | none => []
        | none => []
      else []) := by
  unfold dcSpecIndexed
  rw [traceMap_append_one]
  by_cases h : e.op = "Read" ∧ e.offset = 4
  · simp only [h, if_true, and_true]
    rcases hsel : idxSel pre with _ | k
    · simp
    · simp only
      rcases hlast : (indexedReads pre k).getLast? with _ | p
      · simp
      · simp only
        split <;> simp
  · simp [h]

theorem dcSpecDirect_append (pre : List Entry) (e : Entry) :
    dcSpecDirect (pre ++ [e]) = dcSpecDirect pre ++
      (if e.op = "Read" ∧ ¬e.offset = 0 ∧ ¬e.offset = 4 then
        match (directReads pre e.offset).getLast? with
        | some p =>
          if ((directWrites pre e.offset).all (fun q => decide (q.1 ≤ p.1))) ∧ ¬p.2 = e.value then
            [⟨e.offset, some p.2, e.value, pre.length⟩] else []
        | none => []
      else []) := by
  unfold dcSpecDirect
  rw [traceMap_append_one]
  by_cases h : e.op = "Read" ∧ ¬e.offset = 0 ∧ ¬e.offset = 4
  · rw [if_pos h, if_pos h]
    rcases hlast : (directReads pre e.offset).getLast? with _ | p
    · simp
    · simp only
      split <;> simp
  · simp [h]

/-! ### Position bounds for the read/write lists -/

theorem indexedReads_pos_lt {pre : List Entry} {k : Nat} {p : Nat × Nat}
    (h : p ∈ indexedReads pre k) : p.1 < pre.length := by
  rw [indexedReads, traceMap_mem] at h
  obtain ⟨j, e, hj, _, hf⟩ := h
  split at hf
  · cases hf; exact hj
  · cases hf

theorem indexedWrites_pos_lt {pre : List Entry} {k : Nat} {p : Nat × Nat}
    (h : p ∈ indexedWrites pre k) : p.1 < pre.length := by
  rw [indexedWrites, traceMap_mem] at h
  obtain ⟨j, e, hj, _, hf⟩ := h
  split at hf
  · cases hf; exact hj
  · cases hf

theorem directReads_pos_lt {pre : List Entry} {k : Nat} {p : Nat × Nat}
    (h : p ∈ directReads pre k) : p.1 < pre.length := by
  rw [directReads, traceMap_mem] at h
  obtain ⟨j, e, hj, _, hf⟩ := h
  split at hf
  · cases hf; exact hj
  · cases hf

theorem directWrites_pos_lt {pre : List Entry} {k : Nat} {p : Nat × Nat}
    (h : p ∈ directWrites pre k) : p.1 < pre.length := by
  rw [directWrites, traceMap_mem] at h
  obtain ⟨j, e, hj, _, hf⟩ := h
  split at hf
  · cases hf; exact hj
  · cases hf

/-! ### The `analyze_log` loop refines the specifications -/

/-- Invariant tying the `analyze_log` loop state after a processed prefix
to the declarative specifications. -/
structure InvLog (pre : List Entry) (s : LogState) : Prop where
  cur : ∀ k, s.current_state k = lastWrittenVal pre k
  chg : ∀ k, s.all_changes k = changesSpec pre k
  lzw : s.last_0x0_write = last0Write pre
  prs : s.pairs = pairsOffsetSpec pre
  tml : s.timeline.map (fun t => t.index) = List.range pre.length

theorem lastWrittenVal_write_update {pre : List Entry} {f : Nat → Option Nat} {e : Entry}
    (hw : e.op = "Write") (hf : ∀ k, f k = lastWrittenVal pre k) (k : Nat) :
    (if k = e.offset then some e.value else f k) = lastWrittenVal (pre ++ [e]) k := by
  rw [lastWrittenVal_append]
  by_cases hk : k = e.offset
  · subst hk; rw [if_pos rfl, if_pos ⟨hw, rfl⟩]
  · rw [if_neg hk, if_neg (by intro hc; exact hk hc.2.symm)]
    exact hf k

theorem changesSpec_write_update {pre : List Entry} {f : Nat → Option Nat}
    {g : Nat → List ChangeRec} {e : Entry}
    (hw : e.op = "Write") (hf : ∀ k, f k = lastWrittenVal pre k)
    (hg : ∀ k, g k = changesSpec pre k) (k : Nat) :
    (if k = e.offset ∧ decide (f e.offset ≠ some e.value) = true then
       g k ++ [⟨pre.length, f e.offset, e.value⟩] else g k) = changesSpec (pre ++ [e]) k := by
  rw [changesSpec_append, hg k, hf e.offset]
  by_cases hk : k = e.offset
  · subst hk
    by_cases hch : lastWrittenVal pre e.offset ≠ some e.value
    · rw [if_pos ⟨rfl, by simp [hch]⟩, if_pos ⟨hw, rfl, hch⟩]
    · have hv : lastWrittenVal pre e.offset = some e.value := not_not.mp hch
      rw [if_neg (by simp [hv]), if_neg (by intro hc; exact hch hc.2.2)]
      simp
  · rw [if_neg (by intro hc; exact hk hc.1), if_neg (by intro hc; exact hk hc.2.1.symm)]
    simp

theorem stepLog_inv {pre : List Entry} {s : LogState} (e : Entry) (h : InvLog pre s) :
    InvLog (pre ++ [e]) (stepLog s pre.length e) := by
  by_cases hw : e.op = "Write"
  · by_cases h0 : e.offset = 0
    · simp only [stepLog, if_pos hw, if_pos h0]
      refine ⟨?_, ?_, ?_, ?_, ?_⟩ <;> dsimp only
      · exact lastWrittenVal_write_update hw h.cur
      · exact changesSpec_write_update hw h.cur h.chg
      · rw [last0Write_append, if_pos ⟨hw, h0⟩]
      · rw [pairsOffsetSpec_append,
           if_neg (by intro hc; rw [h0] at hc; exact absurd hc.2 (by decide))]
        simp [h.prs]
      · simp [h.tml, List.range_succ]
    · by_cases h4 : e.offset = 4
      · rcases hl : last0Write pre with _ | p
        · simp only [stepLog, if_pos hw, if_neg h0, if_pos h4, h.lzw, hl]
          refine ⟨?_, ?_, ?_, ?_, ?_⟩ <;> dsimp only
          · exact lastWrittenVal_write_update hw h.cur
          · exact changesSpec_write_update hw h.cur h.chg
          · rw [last0Write_append,
               if_neg (by intro hc; rw [h4] at hc; exact absurd hc.2 (by decide))]
            exact hl.symm
          · rw [pairsOffsetSpec_append, if_pos ⟨hw, h4⟩, hl]
            simp [h.prs]
          · simp [h.tml, List.range_succ]
        · simp only [stepLog, if_pos hw, if_neg h0, if_pos h4, h.lzw, hl]
          refine ⟨?_, ?_, ?_, ?_, ?_⟩ <;> dsimp only
          · exact lastWrittenVal_write_update hw h.cur
          · exact changesSpec_write_update hw h.cur h.chg
          · rw [last0Write_append,
               if_neg (by intro hc; rw [h4] at hc; exact absurd hc.2 (by decide))]
            exact hl.symm
          · rw [pairsOffsetSpec_append, if_pos ⟨hw, h4⟩, hl, h.prs]
            have hc4 := h.cur 4
            rw [h4, hc4]
          · simp [h.tml, List.range_succ]
      · simp only [stepLog, if_pos hw, if_neg h0, if_neg h4]
        refine ⟨?_, ?_, ?_, ?_, ?_⟩ <;> dsimp only
        · exact lastWrittenVal_write_update hw h.cur
        · exact changesSpec_write_update hw h.cur h.chg
        · rw [last0Write_append, if_neg (by intro hc; exact h0 hc.2)]
          exact h.lzw
        · rw [pairsOffsetSpec_append, if_neg (by intro hc; exact h4 hc.2)]
          simp [h.prs]
        · simp [h.tml, List.range_succ]
  · simp only [stepLog, if_neg hw]
    refine ⟨?_, ?_, ?_, ?_, ?_⟩ <;> dsimp only
    · intro k
      rw [lastWrittenVal_append, if_neg (by intro hc; exact hw hc.1)]
      exact h.cur k
    · intro k
      rw [changesSpec_append, if_neg (by intro hc; exact hw hc.1)]
      simp [h.chg k]
    · rw [last0Write_append, if_neg (by intro hc; exact hw hc.1)]
      exact h.lzw
    · rw [pairsOffsetSpec_append, if_neg (by intro hc; exact hw hc.1)]
      simp [h.prs]
    · simp [h.tml, List.range_succ]

theorem initLog_inv : InvLog [] initLogState :=
  ⟨fun _ => rfl, fun _ => rfl, rfl, rfl, rfl⟩

theorem runLogAux_inv (es : List Entry) : ∀ (pre : List Entry) (s : LogState),
    InvLog pre s → InvLog (pre ++ es) (runLogAux s pre.length es) := by
  induction es with
  | nil => intro pre s h; simpa using h
  | cons e es ih =>
    intro pre s h
    have h1 := stepLog_inv e h
    have h2 := ih (pre ++ [e]) (stepLog s pre.length e) h1
    have hlen : (pre ++ [e]).length = pre.length + 1 := by simp
    rw [hlen] at h2
    simpa using h2

theorem analyzeLog_inv (es : List Entry) : InvLog es (analyze_log es) := by
  have h := runLogAux_inv es [] initLogState initLog_inv
  simpa [analyze_log] using h

/-! ### Claims about `analyze_log` -/

/-- C1, counterexample.  The claim says `data_changed` is keyed per
`reg_select`: true iff the written data value differs from the most
recently recorded current value at that record's `reg_select` key.  On the
trace `Write 0x0 5; Write 0x4 10; Write 0x0 6; Write 0x4 10` the second
pair (`reg_select` 6) has `data_changed = false` — the code compared
against the last write to raw offset `0x4` (value 10, written under key
5) — while key 6 has no previously recorded value, so the claimed
comparison would give true. -/
theorem c1_per_key_change_claim_false :
    ¬ (∀ p ∈ (analyze_log [⟨"Write", 0, 5, 4⟩, ⟨"Write", 4, 10, 4⟩,
                           ⟨"Write", 0, 6, 4⟩, ⟨"Write", 4, 10, 4⟩]).pairs,
        (p.data_changed = true ↔
          lastKeyedDataVal [⟨"Write", 0, 5, 4⟩, ⟨"Write", 4, 10, 4⟩,
                            ⟨"Write", 0, 6, 4⟩, ⟨"Write", 4, 10, 4⟩] p.index p.reg_select
            ≠ some p.data_value)) := by
  decide

/-- C1, amended.  For every event sequence, the pair records are exactly
`pairsOffsetSpec`: a pair is emitted at each write to the data offset
`0x4` once some index write exists, and its `data_changed` field is true
iff the written value differs from the value most recently written to the
raw data offset `0x4` itself, regardless of which `reg_select` key that
earlier write was made under. -/
theorem c1_pairs_changed_per_raw_offset (es : List Entry) :
    (analyze_log es).pairs = pairsOffsetSpec es :=
  (analyzeLog_inv es).prs

/-- C4.  For every event sequence and key, the recorded change sequence
for that key contains exactly the writes to that key whose value differs
from the immediately preceding current value for that key (absent before
the first write), in trace order; reads contribute nothing
(`changesSpec` only inspects `Write` events). -/
theorem c4_change_sequence_exact (es : List Entry) (k : Nat) :
    (analyze_log es).all_changes k = changesSpec es k :=
  (analyzeLog_inv es).chg k

/-- C5.  On the five-write scenario the analyzer produces exactly the
three pair records `(5, 10, true)`, `(5, 10, false)`, `(6, 20, true)` in
that order. -/
theorem c5_pairing_scenario :
    ((analyze_log [⟨"Write", 0, 5, 4⟩, ⟨"Write", 4, 10, 4⟩, ⟨"Write", 4, 10, 4⟩,
                   ⟨"Write", 0, 6, 4⟩, ⟨"Write", 4, 20, 4⟩]).pairs.map
      (fun p => (p.reg_select, p.data_value, p.data_changed)))
      = [(5, 10, true), (5, 10, false), (6, 20, true)] := by
  decide

/-- C8.  For every event sequence the analyzer emits exactly one timeline
entry per event, none dropped or duplicated, and the entries carry the
sequence indices `0, 1, …` in ascending order. -/
theorem c8_timeline_one_entry_per_event (es : List Entry) :
    (analyze_log es).timeline.length = es.length ∧
    (analyze_log es).timeline.map (fun t => t.index) = List.range es.length := by
  have h := (analyzeLog_inv es).tml
  refine ⟨?_, h⟩
  have := congrArg List.length h
  simpa using this

/-- C9.  On the empty event sequence both passes return empty results:
no timeline entries, no change records for any key, no pairs, an empty
current-state table, and no read-before-write or device-controlled
records in either scheme. -/
theorem c9_empty_trace_empty_results :
    (analyze_log []).timeline = [] ∧
    (∀ k, (analyze_log []).all_changes k = []) ∧
    (analyze_log []).pairs = [] ∧
    (analyze_log []).state_keys = [] ∧
    (∀ k, (analyze_log []).current_state k = none) ∧
    (analyze_registers []).rbw_indexed = [] ∧
    (analyze_registers []).rbw_direct = [] ∧
    (analyze_registers []).dc_indexed = [] ∧
    (analyze_registers []).dc_direct = [] :=
  ⟨rfl, fun _ => rfl, rfl, rfl, fun _ => rfl, rfl, rfl, rfl, rfl⟩

/-! ### Auxiliary facts about the register specifications -/

theorem all_le_of_pos_lt {l : List (Nat × Nat)} {n : Nat} (hb : ∀ p ∈ l, p.1 < n) :
    l.all (fun q => decide (q.1 ≤ n)) = true := by
  rw [List.all_eq_true]
  intro q hq
  simpa using Nat.le_of_lt (hb q hq)

theorem stateSpec_read_update {reads writes : List (Nat × Nat)} {n v : Nat}
    (hb : ∀ p ∈ writes, p.1 < n) :
    stateSpec (reads ++ [(n, v)]) writes = some ⟨some v, false⟩ := by
  unfold stateSpec
  rw [List.getLast?_append]
  simp [all_le_of_pos_lt hb]

theorem stateSpec_write_update {reads writes : List (Nat × Nat)} {n v : Nat}
    (hb : ∀ p ∈ reads, p.1 < n) :
    stateSpec reads (writes ++ [(n, v)]) =
      match stateSpec reads writes with
      | some st => some ⟨st.last_read, true⟩
      | none => some ⟨none, true⟩ := by
  unfold stateSpec
  rcases hl : reads.getLast? with _ | p
  · by_cases hw : writes.isEmpty <;> simp [hw]
  · have hp : p ∈ reads := List.mem_of_getLast?_eq_some hl
    have hpn : ¬(n ≤ p.1) := by have := hb p hp; omega
    simp [hpn]

theorem dc_delta_eq (k n v : Nat) (reads writes : List (Nat × Nat)) :
    (match stateSpec reads writes with
     | some st =>
       if st.write_since_read = false ∧ st.last_read ≠ some v then
         [(⟨k, st.last_read, v, n⟩ : DCRec)] else []
     | none => []) =
    (match reads.getLast? with
     | some p =>
       if (writes.all (fun q => decide (q.1 ≤ p.1))) ∧ ¬p.2 = v then
         [(⟨k, some p.2, v, n⟩ : DCRec)] else []
     | none => []) := by
  unfold stateSpec
  rcases hl : reads.getLast? with _ | p
  · by_cases hw : writes.isEmpty <;> simp [hw]
  · simp only
    by_cases hall : writes.all (fun q => decide (q.1 ≤ p.1)) = true <;>
      by_cases hv : p.2 = v <;> simp [hall, hv]

theorem mem_indexedReads_intro {pre : List Entry} {j : Nat} {e : Entry} {k : Nat}
    (hj : j < pre.length) (he : pre[j]? = some e)
    (hr : e.op = "Read") (ho : e.offset = 4) (hs : idxSel (pre.take j) = some k) :
    (j, e.value) ∈ indexedReads pre k := by
  rw [indexedReads, traceMap_mem]
  exact ⟨j, e, hj, he, by rw [if_pos ⟨hr, ho, hs⟩]⟩

theorem mem_directReads_intro {pre : List Entry} {j : Nat} {e : Entry}
    (hj : j < pre.length) (he : pre[j]? = some e)
    (hr : e.op = "Read") (h0 : ¬e.offset = 0) (h4 : ¬e.offset = 4) :
    (j, e.value) ∈ directReads pre e.offset := by
  rw [directReads, traceMap_mem]
  exact ⟨j, e, hj, he, by rw [if_pos ⟨hr, rfl, h0, h4⟩]⟩

theorem rbwSpecIndexed_any_key {pre : List Entry} {k : Nat}
    (h : (rbwSpecIndexed pre).any (fun r => r.key == k) = true) :
    ¬indexedReads pre k = [] := by
  rw [List.any_eq_true] at h
  obtain ⟨r, hr, hk⟩ := h
  rw [rbwSpecIndexed, traceMap_mem] at hr
  obtain ⟨j, e, hj, he, hf⟩ := hr
  split at hf
  · rename_i hcond
    rcases hsel : idxSel (pre.take j) with _ | k'
    · rw [hsel] at hf; cases hf
    · rw [hsel] at hf
      dsimp only at hf
      by_cases hc2 : (indexedReads (pre.take j) k').isEmpty = true ∧ (indexedWrites (pre.take j) k').isEmpty = true
      · rw [if_pos hc2] at hf
        cases hf
        have hkk : k' = k := by simpa using hk
        subst hkk
        exact List.ne_nil_of_mem (mem_indexedReads_intro hj he hcond.1 hcond.2 hsel)
      · rw [if_neg hc2] at hf
        cases hf
  · cases hf

theorem rbwSpecDirect_any_key {pre : List Entry} {k : Nat}
    (h : (rbwSpecDirect pre).any (fun r => r.key == k) = true) :
    ¬directReads pre k = [] := by
  rw [List.any_eq_true] at h
  obtain ⟨r, hr, hk⟩ := h
  rw [rbwSpecDirect, traceMap_mem] at hr
  obtain ⟨j, e, hj, he, hf⟩ := hr
  split at hf
  · rename_i hcond
    by_cases hc2 : (directReads (pre.take j) e.offset).isEmpty = true ∧ (directWrites (pre.take j) e.offset).isEmpty = true
    · rw [if_pos hc2] at hf
      cases hf
      have hkk : e.offset = k := by simpa using hk
      subst hkk
      exact List.ne_nil_of_mem (mem_directReads_intro hj he hcond.1 hcond.2.1 hcond.2.2)
    · rw [if_neg hc2] at hf
      cases hf
  · cases hf

theorem rbwSpecIndexed_read_key {pre : List Entry} {k : Nat}
    (hw : indexedWrites pre k = []) (hr : ¬indexedReads pre k = []) :
    (rbwSpecIndexed pre).any (fun r => r.key == k) = true := by
  induction pre using List.reverseRecOn with
  | nil => exact absurd rfl hr
  | append_singleton pre e ih =>
    rw [indexedWrites_append] at hw
    rw [indexedReads_append] at hr
    rw [rbwSpecIndexed_append, List.any_append]
    have hw1 : indexedWrites pre k = [] := by
      rcases List.append_eq_nil.mp hw with ⟨h1, _⟩
      exact h1
    by_cases hr1 : indexedReads pre k = []
    · rw [hr1] at hr
      simp only [List.nil_append] at hr
      have hcond : e.op = "Read" ∧ e.offset = 4 ∧ idxSel pre = some k := by
        by_contra hc
        rw [if_neg hc] at hr
        exact hr rfl
      rw [if_pos ⟨hcond.1, hcond.2.1⟩, hcond.2.2]
      simp only
      rw [if_pos ⟨by simp [hr1], by simp [hw1]⟩]
      simp
    · rw [ih hw1 hr1]
      simp

theorem rbwSpecDirect_read_key {pre : List Entry} {k : Nat}
    (hw : directWrites pre k = []) (hr : ¬directReads pre k = []) :
    (rbwSpecDirect pre).any (fun r => r.key == k) = true := by
  induction pre using List.reverseRecOn with
  | nil => exact absurd rfl hr
  | append_singleton pre e ih =>
    rw [directWrites_append] at hw
    rw [directReads_append] at hr
    rw [rbwSpecDirect_append, List.any_append]
    have hw1 : directWrites pre k = [] := by
      rcases List.append_eq_nil.mp hw with ⟨h1, _⟩
      exact h1
    by_cases hr1 : directReads pre k = []
    · rw [hr1] at hr
      simp only [List.nil_append] at hr
      have hcond : e.op = "Read" ∧ e.offset = k ∧ ¬k = 0 ∧ ¬k = 4 := by
        by_contra hc
        rw [if_neg hc] at hr
        exact hr rfl
      obtain ⟨hro, hok, h0, h4⟩ := hcond
      rw [if_pos ⟨hro, by rw [hok]; exact h0, by rw [hok]; exact h4⟩, hok]
      rw [if_pos ⟨by simp [hr1], by simp [hw1]⟩]
      simp
    · rw [ih hw1 hr1]
      simp

theorem idxSel_eq_of {pre : List Entry} {e : Entry}
    (h : ¬(e.op = "Write" ∧ e.offset = 0)) : idxSel (pre ++ [e]) = idxSel pre := by
  rw [idxSel_append, if_neg h]

theorem indexedReads_eq_of {pre : List Entry} {e : Entry} {k : Nat}
    (h : ¬(e.op = "Read" ∧ e.offset = 4 ∧ idxSel pre = some k)) :
    indexedReads (pre ++ [e]) k = indexedReads pre k := by
  rw [indexedReads_append, if_neg h, List.append_nil]

theorem indexedWrites_eq_of {pre : List Entry} {e : Entry} {k : Nat}
    (h : ¬(e.op = "Write" ∧ e.offset = 4 ∧ idxSel pre = some k)) :
    indexedWrites (pre ++ [e]) k = indexedWrites pre k := by
  rw [indexedWrites_append, if_neg h, List.append_nil]

theorem directReads_eq_of {pre : List Entry} {e : Entry} {k : Nat}
    (h : ¬(e.op = "Read" ∧ e.offset = k ∧ ¬k = 0 ∧ ¬k = 4)) :
    directReads (pre ++ [e]) k = directReads pre k := by
  rw [directReads_append, if_neg h, List.append_nil]

theorem directWrites_eq_of {pre : List Entry} {e : Entry} {k : Nat}
    (h : ¬(e.op = "Write" ∧ e.offset = k ∧ ¬k = 0 ∧ ¬k = 4)) :
    directWrites (pre ++ [e]) k = directWrites pre k := by
  rw [directWrites_append, if_neg h, List.append_nil]

theorem rbwSpecIndexed_eq_of {pre : List Entry} {e : Entry}
    (h : ¬(e.op = "Read" ∧ e.offset = 4)) :
    rbwSpecIndexed (pre ++ [e]) = rbwSpecIndexed pre := by
  rw [rbwSpecIndexed_append, if_neg h, List.append_nil]

theorem rbwSpecIndexed_eq_of_selnone {pre : List Entry} {e : Entry}
    (hsel : idxSel pre = none) :
    rbwSpecIndexed (pre ++ [e]) = rbwSpecIndexed pre := by
  rw [rbwSpecIndexed_append, hsel]
  simp

theorem rbwSpecDirect_eq_of {pre : List Entry} {e : Entry}
    (h : ¬(e.op = "Read" ∧ ¬e.offset = 0 ∧ ¬e.offset = 4)) :
    rbwSpecDirect (pre ++ [e]) = rbwSpecDirect pre := by
  rw [rbwSpecDirect_append, if_neg h, List.append_nil]

theorem dcSpecIndexed_eq_of {pre : List Entry} {e : Entry}
    (h : ¬(e.op = "Read" ∧ e.offset = 4)) :
    dcSpecIndexed (pre ++ [e]) = dcSpecIndexed pre := by
  rw [dcSpecIndexed_append, if_neg h, List.append_nil]

theorem dcSpecIndexed_eq_of_selnone {pre : List Entry} {e : Entry}
    (hsel : idxSel pre = none) :
    dcSpecIndexed (pre ++ [e]) = dcSpecIndexed pre := by
  rw [dcSpecIndexed_append, hsel]
  simp

theorem dcSpecDirect_eq_of {pre : List Entry} {e : Entry}
    (h : ¬(e.op = "Read" ∧ ¬e.offset = 0 ∧ ¬e.offset = 4)) :
    dcSpecDirect (pre ++ [e]) = dcSpecDirect pre := by
  rw [dcSpecDirect_append, if_neg h, List.append_nil]

theorem indexedStateSpec_eq_of {pre : List Entry} {e : Entry} {k : Nat}
    (hr : ¬(e.op = "Read" ∧ e.offset = 4 ∧ idxSel pre = some k))
    (hw : ¬(e.op = "Write" ∧ e.offset = 4 ∧ idxSel pre = some k)) :
    indexedStateSpec (pre ++ [e]) k = indexedStateSpec pre k := by
  unfold indexedStateSpec
  rw [indexedReads_eq_of hr, indexedWrites_eq_of hw]

theorem directStateSpec_eq_of {pre : List Entry} {e : Entry} {k : Nat}
    (hr : ¬(e.op = "Read" ∧ e.offset = k ∧ ¬k = 0 ∧ ¬k = 4))
    (hw : ¬(e.op = "Write" ∧ e.offset = k ∧ ¬k = 0 ∧ ¬k = 4)) :
    directStateSpec (pre ++ [e]) k = directStateSpec pre k := by
  unfold directStateSpec
  rw [directReads_eq_of hr, directWrites_eq_of hw]

theorem indexedStateSpec_read_upd {pre : List Entry} {e : Entry} {k : Nat}
    (hr : e.op = "Read") (h4 : e.offset = 4) (hsel : idxSel pre = some k) :
    indexedStateSpec (pre ++ [e]) k = some ⟨some e.value, false⟩ := by
  unfold indexedStateSpec
  rw [indexedReads_append, if_pos ⟨hr, h4, hsel⟩,
     indexedWrites_eq_of (by rw [hr]; rintro ⟨hc, -⟩; exact absurd hc (by decide))]
  exact stateSpec_read_update (fun p hp => indexedWrites_pos_lt hp)

theorem indexedStateSpec_write_upd {pre : List Entry} {e : Entry} {k : Nat}
    (hw : e.op = "Write") (h4 : e.offset = 4) (hsel : idxSel pre = some k) :
    indexedStateSpec (pre ++ [e]) k =
      match indexedStateSpec pre k with
      | some st => some ⟨st.last_read, true⟩
      | none => some ⟨none, true⟩ := by
  unfold indexedStateSpec
  rw [indexedWrites_append, if_pos ⟨hw, h4, hsel⟩,
     indexedReads_eq_of (by rw [hw]; rintro ⟨hc, -⟩; exact absurd hc (by decide))]
  exact stateSpec_write_update (fun p hp => indexedReads_pos_lt hp)

theorem directStateSpec_read_upd {pre : List Entry} {e : Entry}
    (hr : e.op = "Read") (h0 : ¬e.offset = 0) (h4 : ¬e.offset = 4) :
    directStateSpec (pre ++ [e]) e.offset = some ⟨some e.value, false⟩ := by
  unfold directStateSpec
  rw [directReads_append, if_pos ⟨hr, rfl, h0, h4⟩,
     directWrites_eq_of (by rw [hr]; rintro ⟨hc, -⟩; exact absurd hc (by decide))]
  exact stateSpec_read_update (fun p hp => directWrites_pos_lt hp)

theorem directStateSpec_write_upd {pre : List Entry} {e : Entry}
    (hw : e.op = "Write") (h0 : ¬e.offset = 0) (h4 : ¬e.offset = 4) :
    directStateSpec (pre ++ [e]) e.offset =
      match directStateSpec pre e.offset with
      | some st => some ⟨st.last_read, true⟩
      | none => some ⟨none, true⟩ := by
  unfold directStateSpec
  rw [directWrites_append, if_pos ⟨hw, rfl, h0, h4⟩,
     directReads_eq_of (by rw [hw]; rintro ⟨hc, -⟩; exact absurd hc (by decide))]
  exact stateSpec_write_update (fun p hp => directReads_pos_lt hp)

theorem stateSpec_eq_none {reads writes : List (Nat × Nat)} (h : stateSpec reads writes = none) :
    reads.getLast? = none ∧ writes.isEmpty = true := by
  unfold stateSpec at h
  rcases hl : reads.getLast? with _ | p
  · rw [hl] at h
    by_cases hw : writes.isEmpty
    · exact ⟨rfl, hw⟩
    · rw [if_neg hw] at h
      cases h
  · rw [hl] at h
    cases h

/-! ### The `analyze_registers` step preserves the invariant -/

/-- Invariant tying the `analyze_registers` loop state after a processed
prefix to the declarative specifications. -/
structure InvRegs (pre : List Entry) (s : RegsState) : Prop where
  ci : s.current_index = idxSel pre
  iw : ∀ k, s.indexed_written k = !(indexedWrites pre k).isEmpty
  dw : ∀ k, s.direct_written k = !(directWrites pre k).isEmpty
  ri : s.rbw_indexed = rbwSpecIndexed pre
  rd : s.rbw_direct = rbwSpecDirect pre
  pi : ∀ k, s.reported_indexed k = (rbwSpecIndexed pre).any (fun r => r.key == k)
  pd : ∀ k, s.reported_direct k = (rbwSpecDirect pre).any (fun r => r.key == k)
  si : ∀ k, s.indexed_state k = indexedStateSpec pre k
  sd : ∀ k, s.direct_state k = directStateSpec pre k
  di : s.dc_indexed = dcSpecIndexed pre
  dd : s.dc_direct = dcSpecDirect pre

theorem stepRegs_inv {pre : List Entry} {s : RegsState} (e : Entry) (h : InvRegs pre s) :
    InvRegs (pre ++ [e]) (stepRegs s pre.length e) := by
  by_cases h0 : e.offset = 0
  · have h40 : ¬e.offset = 4 := by rw [h0]; decide
    by_cases hw : e.op = "Write"
    · have hnr : ¬e.op = "Read" := by rw [hw]; decide
      simp only [stepRegs, if_pos h0, if_pos hw]
      refine ⟨?_, ?_, ?_, ?_, ?_, ?_, ?_, ?_, ?_, ?_, ?_⟩ <;> dsimp only
      · rw [idxSel_append, if_pos (⟨hw, h0⟩ : e.op = "Write" ∧ e.offset = 0)]
      · intro k
        rw [indexedWrites_eq_of (by rintro ⟨-, hc, -⟩; exact h40 hc)]
        exact h.iw k
      · intro k
        rw [directWrites_eq_of (by rintro ⟨-, hc, hc0, -⟩; exact hc0 (hc.symm.trans h0))]
        exact h.dw k
      · rw [rbwSpecIndexed_eq_of (by rintro ⟨hc, -⟩; exact hnr hc)]
        exact h.ri
      · rw [rbwSpecDirect_eq_of (by rintro ⟨-, hc, -⟩; exact hc h0)]
        exact h.rd
      · intro k
        rw [rbwSpecIndexed_eq_of (by rintro ⟨hc, -⟩; exact hnr hc)]
        exact h.pi k
      · intro k
        rw [rbwSpecDirect_eq_of (by rintro ⟨-, hc, -⟩; exact hc h0)]
        exact h.pd k
      · intro k
        rw [indexedStateSpec_eq_of (by rintro ⟨-, hc, -⟩; exact h40 hc)
             (by rintro ⟨-, hc, -⟩; exact h40 hc)]
        exact h.si k
      · intro k
        rw [directStateSpec_eq_of (by rintro ⟨-, hc, hc0, -⟩; exact hc0 (hc.symm.trans h0))
             (by rintro ⟨-, hc, hc0, -⟩; exact hc0 (hc.symm.trans h0))]
        exact h.sd k
      · rw [dcSpecIndexed_eq_of (by rintro ⟨hc, -⟩; exact hnr hc)]
        exact h.di
      · rw [dcSpecDirect_eq_of (by rintro ⟨-, hc, -⟩; exact hc h0)]
        exact h.dd
    · simp only [stepRegs, if_pos h0, if_neg hw]
      refine ⟨?_, ?_, ?_, ?_, ?_, ?_, ?_, ?_, ?_, ?_, ?_⟩
      · rw [idxSel_eq_of (by rintro ⟨hc, -⟩; exact hw hc)]
        first | exact h.ci | exact hsel.symm
      · intro k
        rw [indexedWrites_eq_of (by rintro ⟨hc, -⟩; exact hw hc)]
        exact h.iw k
      · intro k
        rw [directWrites_eq_of (by rintro ⟨hc, -⟩; exact hw hc)]
        exact h.dw k
      · rw [rbwSpecIndexed_eq_of (by rintro ⟨-, hc⟩; exact h40 hc)]
        exact h.ri
      · rw [rbwSpecDirect_eq_of (by rintro ⟨-, hc, -⟩; exact hc h0)]
        exact h.rd
      · intro k
        rw [rbwSpecIndexed_eq_of (by rintro ⟨-, hc⟩; exact h40 hc)]
        exact h.pi k
      · intro k
        rw [rbwSpecDirect_eq_of (by rintro ⟨-, hc, -⟩; exact hc h0)]
        exact h.pd k
      · intro k
        rw [indexedStateSpec_eq_of (by rintro ⟨-, hc, -⟩; exact h40 hc)
             (by rintro ⟨-, hc, -⟩; exact h40 hc)]
        exact h.si k
      · intro k
        rw [directStateSpec_eq_of (by rintro ⟨-, hc, hc0, -⟩; exact hc0 (hc.symm.trans h0))
             (by rintro ⟨-, hc, hc0, -⟩; exact hc0 (hc.symm.trans h0))]
        exact h.sd k
      · rw [dcSpecIndexed_eq_of (by rintro ⟨-, hc⟩; exact h40 hc)]
        exact h.di
      · rw [dcSpecDirect_eq_of (by rintro ⟨-, hc, -⟩; exact hc h0)]
        exact h.dd
  · by_cases h4 : e.offset = 4
    · rcases hsel : idxSel pre with _ | k0
      · simp only [stepRegs, if_neg h0, if_pos h4, h.ci, hsel]
        refine ⟨?_, ?_, ?_, ?_, ?_, ?_, ?_, ?_, ?_, ?_, ?_⟩
        · rw [idxSel_eq_of (by rintro ⟨-, hc⟩; exact h0 hc)]
          first | exact h.ci | exact hsel.symm
        · intro k
          rw [indexedWrites_eq_of (by rintro ⟨-, -, hc⟩; rw [hsel] at hc; cases hc)]
          exact h.iw k
        · intro k
          rw [directWrites_eq_of (by rintro ⟨-, hc, -, hc4⟩; exact hc4 (hc.symm.trans h4))]
          exact h.dw k
        · rw [rbwSpecIndexed_eq_of_selnone hsel]
          exact h.ri
        · rw [rbwSpecDirect_eq_of (by rintro ⟨-, -, hc⟩; exact hc h4)]
          exact h.rd
        · intro k
          rw [rbwSpecIndexed_eq_of_selnone hsel]
          exact h.pi k
        · intro k
          rw [rbwSpecDirect_eq_of (by rintro ⟨-, -, hc⟩; exact hc h4)]
          exact h.pd k
        · intro k
          rw [indexedStateSpec_eq_of (by rintro ⟨-, -, hc⟩; rw [hsel] at hc; cases hc)
               (by rintro ⟨-, -, hc⟩; rw [hsel] at hc; cases hc)]
          exact h.si k
        · intro k
          rw [directStateSpec_eq_of (by rintro ⟨-, hc, -, hc4⟩; exact hc4 (hc.symm.trans h4))
               (by rintro ⟨-, hc, -, hc4⟩; exact hc4 (hc.symm.trans h4))]
          exact h.sd k
        · rw [dcSpecIndexed_eq_of_selnone hsel]
          exact h.di
        · rw [dcSpecDirect_eq_of (by rintro ⟨-, -, hc⟩; exact hc h4)]
          exact h.dd
      · by_cases hr : e.op = "Read"
        · have hnw : ¬e.op = "Write" := by rw [hr]; decide
          by_cases hcan : (!(indexedWrites pre k0).isEmpty) = false ∧
              ((rbwSpecIndexed pre).any (fun r => r.key == k0)) = false
          · have hwE : indexedWrites pre k0 = [] := by
              have := hcan.1
              simpa using this
            have hrE : indexedReads pre k0 = [] := by
              by_contra hne
              have := rbwSpecIndexed_read_key hwE hne
              rw [this] at hcan
              exact absurd hcan.2 (by decide)
            have hstn : indexedStateSpec pre k0 = none := by
              unfold indexedStateSpec stateSpec
              rw [hrE, hwE]
              rfl
            simp only [stepRegs, if_neg h0, if_pos h4, h.ci, hsel, if_pos hr,
              h.iw k0, h.pi k0, if_pos hcan]
            try dsimp only
            rw [h.si k0, hstn]
            try dsimp only
            refine ⟨?_, ?_, ?_, ?_, ?_, ?_, ?_, ?_, ?_, ?_, ?_⟩ <;> dsimp only
            · rw [idxSel_eq_of (by rintro ⟨hc, -⟩; exact hnw hc)]
              first | exact h.ci | exact hsel.symm
            · intro k
              rw [indexedWrites_eq_of (by rintro ⟨hc, -⟩; exact hnw hc)]
              exact h.iw k
            · intro k
              rw [directWrites_eq_of (by rintro ⟨hc, -⟩; exact hnw hc)]
              exact h.dw k
            · have hif : (indexedReads pre k0).isEmpty = true ∧
                  (indexedWrites pre k0).isEmpty = true := by
                rw [hrE, hwE]
                exact ⟨rfl, rfl⟩
              rw [rbwSpecIndexed_append, if_pos (⟨hr, h4⟩ : e.op = "Read" ∧ e.offset = 4), hsel]
              try dsimp only
              rw [if_pos hif, h.ri]
            · rw [rbwSpecDirect_eq_of (by rintro ⟨-, -, hc⟩; exact hc h4)]
              exact h.rd
            · intro k
              have hif : (indexedReads pre k0).isEmpty = true ∧
                  (indexedWrites pre k0).isEmpty = true := by
                rw [hrE, hwE]
                exact ⟨rfl, rfl⟩
              rw [rbwSpecIndexed_append, if_pos (⟨hr, h4⟩ : e.op = "Read" ∧ e.offset = 4), hsel]
              try dsimp only
              rw [if_pos hif, List.any_append]
              by_cases hk : k = k0
              · subst hk
                simp
              · have hbk : (k0 == k) = false := beq_eq_false_iff_ne.mpr (fun hc => hk hc.symm)
                simp [hbk, hk, h.pi k]
            · intro k
              rw [rbwSpecDirect_eq_of (by rintro ⟨-, -, hc⟩; exact hc h4)]
              exact h.pd k
            · intro k
              by_cases hk : k = k0
              · subst hk
                rw [if_pos rfl, indexedStateSpec_read_upd hr h4 hsel]
              · rw [if_neg hk,
                   indexedStateSpec_eq_of
                     (by rintro ⟨-, -, hc⟩; rw [hsel] at hc
                         exact hk (Option.some_injective _ hc.symm))
                     (by rintro ⟨hc, -⟩; exact hnw hc)]
                exact h.si k
            · intro k
              rw [directStateSpec_eq_of (by rintro ⟨-, hc, -, hc4⟩; exact hc4 (hc.symm.trans h4))
                   (by rintro ⟨-, hc, -, hc4⟩; exact hc4 (hc.symm.trans h4))]
              exact h.sd k
            · rw [dcSpecIndexed_append, if_pos (⟨hr, h4⟩ : e.op = "Read" ∧ e.offset = 4), hsel]
              try dsimp only
              rw [hrE]
              simp [h.di]
            · rw [dcSpecDirect_eq_of (by rintro ⟨-, -, hc⟩; exact hc h4)]
              exact h.dd
          · have hdelta : ¬((indexedReads pre k0).isEmpty = true ∧
                (indexedWrites pre k0).isEmpty = true) := by
              rintro ⟨hre, hwe⟩
              have hwE : indexedWrites pre k0 = [] := by simpa using hwe
              have hrE : indexedReads pre k0 = [] := by simpa using hre
              apply hcan
              constructor
              · rw [hwE]; rfl
              · by_contra hany
                have hany' : (rbwSpecIndexed pre).any (fun r => r.key == k0) = true := by
                  cases hb : (rbwSpecIndexed pre).any (fun r => r.key == k0)
                  · exact absurd hb hany
                  · rfl
                exact absurd hrE (rbwSpecIndexed_any_key hany')
            simp only [stepRegs, if_neg h0, if_pos h4, h.ci, hsel, if_pos hr,
              h.iw k0, h.pi k0, if_neg hcan, h.si k0]
            rcases hst : indexedStateSpec pre k0 with _ | st
            · obtain ⟨hrl, hwe⟩ := stateSpec_eq_none hst
              simp only [hst]
              try dsimp only
              refine ⟨?_, ?_, ?_, ?_, ?_, ?_, ?_, ?_, ?_, ?_, ?_⟩ <;> dsimp only
              · rw [idxSel_eq_of (by rintro ⟨hc, -⟩; exact hnw hc)]
                first | exact h.ci | exact hsel.symm
              · intro k
                rw [indexedWrites_eq_of (by rintro ⟨hc, -⟩; exact hnw hc)]
                exact h.iw k
              · intro k
                rw [directWrites_eq_of (by rintro ⟨hc, -⟩; exact hnw hc)]
                exact h.dw k
              · rw [rbwSpecIndexed_append, if_pos (⟨hr, h4⟩ : e.op = "Read" ∧ e.offset = 4), hsel]
                try dsimp only
                rw [if_neg hdelta, h.ri, List.append_nil]
              · rw [rbwSpecDirect_eq_of (by rintro ⟨-, -, hc⟩; exact hc h4)]
                exact h.rd
              · intro k
                rw [rbwSpecIndexed_append, if_pos (⟨hr, h4⟩ : e.op = "Read" ∧ e.offset = 4), hsel]
                try dsimp only
                rw [if_neg hdelta, List.append_nil]
                exact h.pi k
              · intro k
                rw [rbwSpecDirect_eq_of (by rintro ⟨-, -, hc⟩; exact hc h4)]
                exact h.pd k
              · intro k
                by_cases hk : k = k0
                · subst hk
                  rw [if_pos rfl, indexedStateSpec_read_upd hr h4 hsel]
                · rw [if_neg hk,
                     indexedStateSpec_eq_of
                       (by rintro ⟨-, -, hc⟩; rw [hsel] at hc
                           exact hk (Option.some_injective _ hc.symm))
                       (by rintro ⟨hc, -⟩; exact hnw hc)]
                  exact h.si k
              · intro k
                rw [directStateSpec_eq_of (by rintro ⟨-, hc, -, hc4⟩; exact hc4 (hc.symm.trans h4))
                     (by rintro ⟨-, hc, -, hc4⟩; exact hc4 (hc.symm.trans h4))]
                exact h.sd k
              · rw [dcSpecIndexed_append, if_pos (⟨hr, h4⟩ : e.op = "Read" ∧ e.offset = 4), hsel]
                try dsimp only
                rw [hrl]
                simp [h.di]
              · rw [dcSpecDirect_eq_of (by rintro ⟨-, -, hc⟩; exact hc h4)]
                exact h.dd
            · simp only [hst]
              try dsimp only
              have hdc : dcSpecIndexed (pre ++ [e]) = dcSpecIndexed pre ++
                  (if st.write_since_read = false ∧ st.last_read ≠ some e.value then
                    [(⟨k0, st.last_read, e.value, pre.length⟩ : DCRec)] else []) := by
                rw [dcSpecIndexed_append, if_pos (⟨hr, h4⟩ : e.op = "Read" ∧ e.offset = 4), hsel]
                try dsimp only
                rw [← dc_delta_eq k0 pre.length e.value (indexedReads pre k0) (indexedWrites pre k0)]
                have hstu : stateSpec (indexedReads pre k0) (indexedWrites pre k0) = some st := hst
                rw [hstu]
              by_cases hemit : st.write_since_read = false ∧ st.last_read ≠ some e.value
              · rw [if_pos hemit] at hdc
                simp only [if_pos hemit]
                try dsimp only
                refine ⟨?_, ?_, ?_, ?_, ?_, ?_, ?_, ?_, ?_, ?_, ?_⟩ <;> dsimp only
                · rw [idxSel_eq_of (by rintro ⟨hc, -⟩; exact hnw hc)]
                  first | exact h.ci | exact hsel.symm
                · intro k
                  rw [indexedWrites_eq_of (by rintro ⟨hc, -⟩; exact hnw hc)]
                  exact h.iw k
                · intro k
                  rw [directWrites_eq_of (by rintro ⟨hc, -⟩; exact hnw hc)]
                  exact h.dw k
                · rw [rbwSpecIndexed_append, if_pos (⟨hr, h4⟩ : e.op = "Read" ∧ e.offset = 4), hsel]
                  try dsimp only
                  rw [if_neg hdelta, h.ri, List.append_nil]
                · rw [rbwSpecDirect_eq_of (by rintro ⟨-, -, hc⟩; exact hc h4)]
                  exact h.rd
                · intro k
                  rw [rbwSpecIndexed_append, if_pos (⟨hr, h4⟩ : e.op = "Read" ∧ e.offset = 4), hsel]
                  try dsimp only
                  rw [if_neg hdelta, List.append_nil]
                  exact h.pi k
                · intro k
                  rw [rbwSpecDirect_eq_of (by rintro ⟨-, -, hc⟩; exact hc h4)]
                  exact h.pd k
                · intro k
                  by_cases hk : k = k0
                  · subst hk
                    rw [if_pos rfl, indexedStateSpec_read_upd hr h4 hsel]
                  · rw [if_neg hk,
                       indexedStateSpec_eq_of
                         (by rintro ⟨-, -, hc⟩; rw [hsel] at hc
                             exact hk (Option.some_injective _ hc.symm))
                         (by rintro ⟨hc, -⟩; exact hnw hc)]
                    exact h.si k
                · intro k
                  rw [directStateSpec_eq_of
                       (by rintro ⟨-, hc, -, hc4⟩; exact hc4 (hc.symm.trans h4))
                       (by rintro ⟨-, hc, -, hc4⟩; exact hc4 (hc.symm.trans h4))]
                  exact h.sd k
                · rw [hdc, h.di]
                · rw [dcSpecDirect_eq_of (by rintro ⟨-, -, hc⟩; exact hc h4)]
                  exact h.dd
              · rw [if_neg hemit] at hdc
                simp only [if_neg hemit]
                try dsimp only
                refine ⟨?_, ?_, ?_, ?_, ?_, ?_, ?_, ?_, ?_, ?_, ?_⟩ <;> dsimp only
                · rw [idxSel_eq_of (by rintro ⟨hc, -⟩; exact hnw hc)]
                  first | exact h.ci | exact hsel.symm
                · intro k
                  rw [indexedWrites_eq_of (by rintro ⟨hc, -⟩; exact hnw hc)]
                  exact h.iw k
                · intro k
                  rw [directWrites_eq_of (by rintro ⟨hc, -⟩; exact hnw hc)]
                  exact h.dw k
                · rw [rbwSpecIndexed_append, if_pos (⟨hr, h4⟩ : e.op = "Read" ∧ e.offset = 4), hsel]
                  try dsimp only
                  rw [if_neg hdelta, h.ri, List.append_nil]
                · rw [rbwSpecDirect_eq_of (by rintro ⟨-, -, hc⟩; exact hc h4)]
                  exact h.rd
                · intro k
                  rw [rbwSpecIndexed_append, if_pos (⟨hr, h4⟩ : e.op = "Read" ∧ e.offset = 4), hsel]
                  try dsimp only
                  rw [if_neg hdelta, List.append_nil]
                  exact h.pi k
                · intro k
                  rw [rbwSpecDirect_eq_of (by rintro ⟨-, -, hc⟩; exact hc h4)]
                  exact h.pd k
                · intro k
                  by_cases hk : k = k0
                  · subst hk
                    rw [if_pos rfl, indexedStateSpec_read_upd hr h4 hsel]
                  · rw [if_neg hk,
                       indexedStateSpec_eq_of
                         (by rintro ⟨-, -, hc⟩; rw [hsel] at hc
                             exact hk (Option.some_injective _ hc.symm))
                         (by rintro ⟨hc, -⟩; exact hnw hc)]
                    exact h.si k
                · intro k
                  rw [directStateSpec_eq_of
                       (by rintro ⟨-, hc, -, hc4⟩; exact hc4 (hc.symm.trans h4))
                       (by rintro ⟨-, hc, -, hc4⟩; exact hc4 (hc.symm.trans h4))]
                  exact h.sd k
                · rw [hdc, h.di, List.append_nil]
                · rw [dcSpecDirect_eq_of (by rintro ⟨-, -, hc⟩; exact hc h4)]
                  exact h.dd
        · by_cases hwr : e.op = "Write"
          · simp only [stepRegs, if_neg h0, if_pos h4, h.ci, hsel, if_neg hr, if_pos hwr,
              h.si k0]
            refine ⟨?_, ?_, ?_, ?_, ?_, ?_, ?_, ?_, ?_, ?_, ?_⟩ <;> dsimp only
            · rw [idxSel_eq_of (by rintro ⟨-, hc⟩; exact h0 hc)]
              first | exact h.ci | exact hsel.symm
            · intro k
              by_cases hk : k = k0
              · rw [if_pos hk, indexedWrites_append,
                   if_pos (⟨hwr, h4, by rw [hk]; exact hsel⟩ :
                     e.op = "Write" ∧ e.offset = 4 ∧ idxSel pre = some k)]
                simp
              · rw [if_neg hk,
                   indexedWrites_eq_of
                     (by rintro ⟨-, -, hc⟩; rw [hsel] at hc
                         exact hk (Option.some_injective _ hc.symm))]
                exact h.iw k
            · intro k
              rw [directWrites_eq_of (by rintro ⟨-, hc, -, hc4⟩; exact hc4 (hc.symm.trans h4))]
              exact h.dw k
            · rw [rbwSpecIndexed_eq_of (by rintro ⟨hc, -⟩; exact hr hc)]
              exact h.ri
            · rw [rbwSpecDirect_eq_of (by rintro ⟨-, -, hc⟩; exact hc h4)]
              exact h.rd
            · intro k
              rw [rbwSpecIndexed_eq_of (by rintro ⟨hc, -⟩; exact hr hc)]
              exact h.pi k
            · intro k
              rw [rbwSpecDirect_eq_of (by rintro ⟨-, -, hc⟩; exact hc h4)]
              exact h.pd k
            · intro k
              by_cases hk : k = k0
              · subst hk
                rw [if_pos rfl, indexedStateSpec_write_upd hwr h4 hsel]
              · rw [if_neg hk,
                   indexedStateSpec_eq_of
                     (by rintro ⟨hc, -⟩; exact hr hc)
                     (by rintro ⟨-, -, hc⟩; rw [hsel] at hc
                         exact hk (Option.some_injective _ hc.symm))]
                exact h.si k
            · intro k
              rw [directStateSpec_eq_of (by rintro ⟨-, hc, -, hc4⟩; exact hc4 (hc.symm.trans h4))
                   (by rintro ⟨-, hc, -, hc4⟩; exact hc4 (hc.symm.trans h4))]
              exact h.sd k
            · rw [dcSpecIndexed_eq_of (by rintro ⟨hc, -⟩; exact hr hc)]
              exact h.di
            · rw [dcSpecDirect_eq_of (by rintro ⟨-, -, hc⟩; exact hc h4)]
              exact h.dd
          · simp only [stepRegs, if_neg h0, if_pos h4, h.ci, hsel, if_neg hr, if_neg hwr]
            refine ⟨?_, ?_, ?_, ?_, ?_, ?_, ?_, ?_, ?_, ?_, ?_⟩
            · rw [idxSel_eq_of (by rintro ⟨hc, -⟩; exact hwr hc)]
              first | exact h.ci | exact hsel.symm
            · intro k
              rw [indexedWrites_eq_of (by rintro ⟨hc, -⟩; exact hwr hc)]
              exact h.iw k
            · intro k
              rw [directWrites_eq_of (by rintro ⟨hc, -⟩; exact hwr hc)]
              exact h.dw k
            · rw [rbwSpecIndexed_eq_of (by rintro ⟨hc, -⟩; exact hr hc)]
              exact h.ri
            · rw [rbwSpecDirect_eq_of (by rintro ⟨hc, -⟩; exact hr hc)]
              exact h.rd
            · intro k
              rw [rbwSpecIndexed_eq_of (by rintro ⟨hc, -⟩; exact hr hc)]
              exact h.pi k
            · intro k
              rw [rbwSpecDirect_eq_of (by rintro ⟨hc, -⟩; exact hr hc)]
              exact h.pd k
            · intro k
              rw [indexedStateSpec_eq_of (by rintro ⟨hc, -⟩; exact hr hc)
                   (by rintro ⟨hc, -⟩; exact hwr hc)]
              exact h.si k
            · intro k
              rw [directStateSpec_eq_of (by rintro ⟨hc, -⟩; exact hr hc)
                   (by rintro ⟨hc, -⟩; exact hwr hc)]
              exact h.sd k
            · rw [dcSpecIndexed_eq_of (by rintro ⟨hc, -⟩; exact hr hc)]
              exact h.di
            · rw [dcSpecDirect_eq_of (by rintro ⟨hc, -⟩; exact hr hc)]
              exact h.dd
    · -- direct register branch
      by_cases hr : e.op = "Read"
      · have hnw : ¬e.op = "Write" := by rw [hr]; decide
        by_cases hcan : (!(directWrites pre e.offset).isEmpty) = false ∧
            ((rbwSpecDirect pre).any (fun r => r.key == e.offset)) = false
        · have hwE : directWrites pre e.offset = [] := by
            have := hcan.1
            simpa using this
          have hrE : directReads pre e.offset = [] := by
            by_contra hne
            have := rbwSpecDirect_read_key hwE hne
            rw [this] at hcan
            exact absurd hcan.2 (by decide)
          have hstn : directStateSpec pre e.offset = none := by
            unfold directStateSpec stateSpec
            rw [hrE, hwE]
            rfl
          simp only [stepRegs, if_neg h0, if_neg h4, if_pos hr,
            h.dw e.offset, h.pd e.offset, if_pos hcan]
          try dsimp only
          rw [h.sd e.offset, hstn]
          try dsimp only
          refine ⟨?_, ?_, ?_, ?_, ?_, ?_, ?_, ?_, ?_, ?_, ?_⟩ <;> dsimp only
          · rw [idxSel_eq_of (by rintro ⟨hc, -⟩; exact hnw hc)]
            first | exact h.ci | exact hsel.symm
          · intro k
            rw [indexedWrites_eq_of (by rintro ⟨hc, -⟩; exact hnw hc)]
            exact h.iw k
          · intro k
            rw [directWrites_eq_of (by rintro ⟨hc, -⟩; exact hnw hc)]
            exact h.dw k
          · rw [rbwSpecIndexed_eq_of (by rintro ⟨-, hc⟩; exact h4 hc)]
            exact h.ri
          · have hif : (directReads pre e.offset).isEmpty = true ∧
                (directWrites pre e.offset).isEmpty = true := by
              rw [hrE, hwE]
              exact ⟨rfl, rfl⟩
            rw [rbwSpecDirect_append, if_pos (⟨hr, h0, h4⟩ : e.op = "Read" ∧ ¬e.offset = 0 ∧ ¬e.offset = 4)]
            rw [if_pos hif, h.rd]
          · intro k
            rw [rbwSpecIndexed_eq_of (by rintro ⟨-, hc⟩; exact h4 hc)]
            exact h.pi k
          · intro k
            have hif : (directReads pre e.offset).isEmpty = true ∧
                (directWrites pre e.offset).isEmpty = true := by
              rw [hrE, hwE]
              exact ⟨rfl, rfl⟩
            rw [rbwSpecDirect_append, if_pos (⟨hr, h0, h4⟩ : e.op = "Read" ∧ ¬e.offset = 0 ∧ ¬e.offset = 4)]
            rw [if_pos hif, List.any_append]
            by_cases hk : k = e.offset
            · subst hk
              simp
            · have hbk : (e.offset == k) = false := beq_eq_false_iff_ne.mpr (fun hc => hk hc.symm)
              simp [hbk, hk, h.pd k]
          · intro k
            rw [indexedStateSpec_eq_of (by rintro ⟨-, hc, -⟩; exact h4 hc)
                 (by rintro ⟨hc, -⟩; exact hnw hc)]
            exact h.si k
          · intro k
            by_cases hk : k = e.offset
            · subst hk
              rw [if_pos rfl, directStateSpec_read_upd hr h0 h4]
            · rw [if_neg hk,
                 directStateSpec_eq_of (by rintro ⟨-, hc, -⟩; exact hk hc.symm)
                   (by rintro ⟨hc, -⟩; exact hnw hc)]
              exact h.sd k
          · rw [dcSpecIndexed_eq_of (by rintro ⟨-, hc⟩; exact h4 hc)]
            exact h.di
          · rw [dcSpecDirect_append, if_pos (⟨hr, h0, h4⟩ : e.op = "Read" ∧ ¬e.offset = 0 ∧ ¬e.offset = 4)]
            rw [hrE]
            simp [h.dd]
        · have hdelta : ¬((directReads pre e.offset).isEmpty = true ∧
              (directWrites pre e.offset).isEmpty = true) := by
            rintro ⟨hre, hwe⟩
            have hwE : directWrites pre e.offset = [] := by simpa using hwe
            have hrE : directReads pre e.offset = [] := by simpa using hre
            apply hcan
            constructor
            · rw [hwE]; rfl
            · by_contra hany
              have hany' : (rbwSpecDirect pre).any (fun r => r.key == e.offset) = true := by
                cases hb : (rbwSpecDirect pre).any (fun r => r.key == e.offset)
                · exact absurd hb hany
                · rfl
              exact absurd hrE (rbwSpecDirect_any_key hany')
          simp only [stepRegs, if_neg h0, if_neg h4, if_pos hr,
            h.dw e.offset, h.pd e.offset, if_neg hcan, h.sd e.offset]
          rcases hst : directStateSpec pre e.offset with _ | st
          · obtain ⟨hrl, hwe⟩ := stateSpec_eq_none hst
            simp only [hst]
            try dsimp only
            refine ⟨?_, ?_, ?_, ?_, ?_, ?_, ?_, ?_, ?_, ?_, ?_⟩ <;> dsimp only
            · rw [idxSel_eq_of (by rintro ⟨hc, -⟩; exact hnw hc)]
              first | exact h.ci | exact hsel.symm
            · intro k
              rw [indexedWrites_eq_of (by rintro ⟨hc, -⟩; exact hnw hc)]
              exact h.iw k
            · intro k
              rw [directWrites_eq_of (by rintro ⟨hc, -⟩; exact hnw hc)]
              exact h.dw k
            · rw [rbwSpecIndexed_eq_of (by rintro ⟨-, hc⟩; exact h4 hc)]
              exact h.ri
            · rw [rbwSpecDirect_append, if_pos (⟨hr, h0, h4⟩ : e.op = "Read" ∧ ¬e.offset = 0 ∧ ¬e.offset = 4)]
              rw [if_neg hdelta, h.rd, List.append_nil]
            · intro k
              rw [rbwSpecIndexed_eq_of (by rintro ⟨-, hc⟩; exact h4 hc)]
              exact h.pi k
            · intro k
              rw [rbwSpecDirect_append, if_pos (⟨hr, h0, h4⟩ : e.op = "Read" ∧ ¬e.offset = 0 ∧ ¬e.offset = 4)]
              rw [if_neg hdelta, List.append_nil]
              exact h.pd k
            · intro k
              rw [indexedStateSpec_eq_of (by rintro ⟨-, hc, -⟩; exact h4 hc)
                   (by rintro ⟨hc, -⟩; exact hnw hc)]
              exact h.si k
            · intro k
              by_cases hk : k = e.offset
              · subst hk
                rw [if_pos rfl, directStateSpec_read_upd hr h0 h4]
              · rw [if_neg hk,
                   directStateSpec_eq_of (by rintro ⟨-, hc, -⟩; exact hk hc.symm)
                     (by rintro ⟨hc, -⟩; exact hnw hc)]
                exact h.sd k
            · rw [dcSpecIndexed_eq_of (by rintro ⟨-, hc⟩; exact h4 hc)]
              exact h.di
            · rw [dcSpecDirect_append, if_pos (⟨hr, h0, h4⟩ : e.op = "Read" ∧ ¬e.offset = 0 ∧ ¬e.offset = 4)]
              rw [hrl]
              simp [h.dd]
          · simp only [hst]
            try dsimp only
            have hdc : dcSpecDirect (pre ++ [e]) = dcSpecDirect pre ++
                (if st.write_since_read = false ∧ st.last_read ≠ some e.value then
                  [(⟨e.offset, st.last_read, e.value, pre.length⟩ : DCRec)] else []) := by
              rw [dcSpecDirect_append, if_pos (⟨hr, h0, h4⟩ : e.op = "Read" ∧ ¬e.offset = 0 ∧ ¬e.offset = 4)]
              rw [← dc_delta_eq e.offset pre.length e.value (directReads pre e.offset)
                  (directWrites pre e.offset)]
              have hstu : stateSpec (directReads pre e.offset) (directWrites pre e.offset)
                  = some st := hst
              rw [hstu]
            by_cases hemit : st.write_since_read = false ∧ st.last_read ≠ some e.value
            · rw [if_pos hemit] at hdc
              simp only [if_pos hemit]
              try dsimp only
              refine ⟨?_, ?_, ?_, ?_, ?_, ?_, ?_, ?_, ?_, ?_, ?_⟩ <;> dsimp only
              · rw [idxSel_eq_of (by rintro ⟨hc, -⟩; exact hnw hc)]
                first | exact h.ci | exact hsel.symm
              · intro k
                rw [indexedWrites_eq_of (by rintro ⟨hc, -⟩; exact hnw hc)]
                exact h.iw k
              · intro k
                rw [directWrites_eq_of (by rintro ⟨hc, -⟩; exact hnw hc)]
                exact h.dw k
              · rw [rbwSpecIndexed_eq_of (by rintro ⟨-, hc⟩; exact h4 hc)]
                exact h.ri
              · rw [rbwSpecDirect_append, if_pos (⟨hr, h0, h4⟩ : e.op = "Read" ∧ ¬e.offset = 0 ∧ ¬e.offset = 4)]
                rw [if_neg hdelta, h.rd, List.append_nil]
              · intro k
                rw [rbwSpecIndexed_eq_of (by rintro ⟨-, hc⟩; exact h4 hc)]
                exact h.pi k
              · intro k
                rw [rbwSpecDirect_append, if_pos (⟨hr, h0, h4⟩ : e.op = "Read" ∧ ¬e.offset = 0 ∧ ¬e.offset = 4)]
                rw [if_neg hdelta, List.append_nil]
                exact h.pd k
              · intro k
                rw [indexedStateSpec_eq_of (by rintro ⟨-, hc, -⟩; exact h4 hc)
                     (by rintro ⟨hc, -⟩; exact hnw hc)]
                exact h.si k
              · intro k
                by_cases hk : k = e.offset
                · subst hk
                  rw [if_pos rfl, directStateSpec_read_upd hr h0 h4]
                · rw [if_neg hk,
                     directStateSpec_eq_of (by rintro ⟨-, hc, -⟩; exact hk hc.symm)
                       (by rintro ⟨hc, -⟩; exact hnw hc)]
                  exact h.sd k
              · rw [dcSpecIndexed_eq_of (by rintro ⟨-, hc⟩; exact h4 hc)]
                exact h.di
              · rw [hdc, h.dd]
            · rw [if_neg hemit] at hdc
              simp only [if_neg hemit]
              try dsimp only
              refine ⟨?_, ?_, ?_, ?_, ?_, ?_, ?_, ?_, ?_, ?_, ?_⟩ <;> dsimp only
              · rw [idxSel_eq_of (by rintro ⟨hc, -⟩; exact hnw hc)]
                first | exact h.ci | exact hsel.symm
              · intro k
                rw [indexedWrites_eq_of (by rintro ⟨hc, -⟩; exact hnw hc)]
                exact h.iw k
              · intro k
                rw [directWrites_eq_of (by rintro ⟨hc, -⟩; exact hnw hc)]
                exact h.dw k
              · rw [rbwSpecIndexed_eq_of (by rintro ⟨-, hc⟩; exact h4 hc)]
                exact h.ri
              · rw [rbwSpecDirect_append, if_pos (⟨hr, h0, h4⟩ : e.op = "Read" ∧ ¬e.offset = 0 ∧ ¬e.offset = 4)]
                rw [if_neg hdelta, h.rd, List.append_nil]
              · intro k
                rw [rbwSpecIndexed_eq_of (by rintro ⟨-, hc⟩; exact h4 hc)]
                exact h.pi k
              · intro k
                rw [rbwSpecDirect_append, if_pos (⟨hr, h0, h4⟩ : e.op = "Read" ∧ ¬e.offset = 0 ∧ ¬e.offset = 4)]
                rw [if_neg hdelta, List.append_nil]
                exact h.pd k
              · intro k
                rw [indexedStateSpec_eq_of (by rintro ⟨-, hc, -⟩; exact h4 hc)
                     (by rintro ⟨hc, -⟩; exact hnw hc)]
                exact h.si k
              · intro k
                by_cases hk : k = e.offset
                · subst hk
                  rw [if_pos rfl, directStateSpec_read_upd hr h0 h4]
                · rw [if_neg hk,
                     directStateSpec_eq_of (by rintro ⟨-, hc, -⟩; exact hk hc.symm)
                       (by rintro ⟨hc, -⟩; exact hnw hc)]
                  exact h.sd k
              · rw [dcSpecIndexed_eq_of (by rintro ⟨-, hc⟩; exact h4 hc)]
                exact h.di
              · rw [hdc, h.dd, List.append_nil]
      · by_cases hwr : e.op = "Write"
        · simp only [stepRegs, if_neg h0, if_neg h4, if_neg hr, if_pos hwr, h.sd e.offset]
          refine ⟨?_, ?_, ?_, ?_, ?_, ?_, ?_, ?_, ?_, ?_, ?_⟩ <;> dsimp only
          · rw [idxSel_eq_of (by rintro ⟨-, hc⟩; exact h0 hc)]
            first | exact h.ci | exact hsel.symm
          · intro k
            rw [indexedWrites_eq_of (by rintro ⟨-, hc, -⟩; exact h4 hc)]
            exact h.iw k
          · intro k
            by_cases hk : k = e.offset
            · subst hk
              rw [if_pos rfl, directWrites_append, if_pos (⟨hwr, rfl, h0, h4⟩ : e.op = "Write" ∧ e.offset = e.offset ∧ ¬e.offset = 0 ∧ ¬e.offset = 4)]
              simp
            · rw [if_neg hk, directWrites_eq_of (by rintro ⟨-, hc, -⟩; exact hk hc.symm)]
              exact h.dw k
          · rw [rbwSpecIndexed_eq_of (by rintro ⟨hc, -⟩; exact hr hc)]
            exact h.ri
          · rw [rbwSpecDirect_eq_of (by rintro ⟨hc, -⟩; exact hr hc)]
            exact h.rd
          · intro k
            rw [rbwSpecIndexed_eq_of (by rintro ⟨hc, -⟩; exact hr hc)]
            exact h.pi k
          · intro k
            rw [rbwSpecDirect_eq_of (by rintro ⟨hc, -⟩; exact hr hc)]
            exact h.pd k
          · intro k
            rw [indexedStateSpec_eq_of (by rintro ⟨hc, -⟩; exact hr hc)
                 (by rintro ⟨-, hc, -⟩; exact h4 hc)]
            exact h.si k
          · intro k
            by_cases hk : k = e.offset
            · subst hk
              rw [if_pos rfl, directStateSpec_write_upd hwr h0 h4]
            · rw [if_neg hk,
                 directStateSpec_eq_of (by rintro ⟨hc, -⟩; exact hr hc)
                   (by rintro ⟨-, hc, -⟩; exact hk hc.symm)]
              exact h.sd k
          · rw [dcSpecIndexed_eq_of (by rintro ⟨hc, -⟩; exact hr hc)]
            exact h.di
          · rw [dcSpecDirect_eq_of (by rintro ⟨hc, -⟩; exact hr hc)]
            exact h.dd
        · simp only [stepRegs, if_neg h0, if_neg h4, if_neg hr, if_neg hwr]
          refine ⟨?_, ?_, ?_, ?_, ?_, ?_, ?_, ?_, ?_, ?_, ?_⟩
          · rw [idxSel_eq_of (by rintro ⟨hc, -⟩; exact hwr hc)]
            first | exact h.ci | exact hsel.symm
          · intro k
            rw [indexedWrites_eq_of (by rintro ⟨hc, -⟩; exact hwr hc)]
            exact h.iw k
          · intro k
            rw [directWrites_eq_of (by rintro ⟨hc, -⟩; exact hwr hc)]
            exact h.dw k
          · rw [rbwSpecIndexed_eq_of (by rintro ⟨hc, -⟩; exact hr hc)]
            exact h.ri
          · rw [rbwSpecDirect_eq_of (by rintro ⟨hc, -⟩; exact hr hc)]
            exact h.rd
          · intro k
            rw [rbwSpecIndexed_eq_of (by rintro ⟨hc, -⟩; exact hr hc)]
            exact h.pi k
          · intro k
            rw [rbwSpecDirect_eq_of (by rintro ⟨hc, -⟩; exact hr hc)]
            exact h.pd k
          · intro k
            rw [indexedStateSpec_eq_of (by rintro ⟨hc, -⟩; exact hr hc)
                 (by rintro ⟨hc, -⟩; exact hwr hc)]
            exact h.si k
          · intro k
            rw [directStateSpec_eq_of (by rintro ⟨hc, -⟩; exact hr hc)
                 (by rintro ⟨hc, -⟩; exact hwr hc)]
            exact h.sd k
          · rw [dcSpecIndexed_eq_of (by rintro ⟨hc, -⟩; exact hr hc)]
            exact h.di
          · rw [dcSpecDirect_eq_of (by rintro ⟨hc, -⟩; exact hr hc)]
            exact h.dd

theorem initRegs_inv : InvRegs [] initRegsState :=
  ⟨rfl, fun _ => rfl, fun _ => rfl, rfl, rfl, fun _ => rfl, fun _ => rfl,
   fun _ => rfl, fun _ => rfl, rfl, rfl⟩

theorem runRegsAux_inv (es : List Entry) : ∀ (pre : List Entry) (s : RegsState),
    InvRegs pre s → InvRegs (pre ++ es) (runRegsAux s pre.length es) := by
  induction es with
  | nil => intro pre s h; simpa using h
  | cons e es ih =>
    intro pre s h
    have h1 := stepRegs_inv e h
    have h2 := ih (pre ++ [e]) (stepRegs s pre.length e) h1
    have hlen : (pre ++ [e]).length = pre.length + 1 := by simp
    rw [hlen] at h2
    simpa using h2

theorem analyzeRegs_inv (es : List Entry) : InvRegs es (analyze_registers es) := by
  have h := runRegsAux_inv es [] initRegsState initRegs_inv
  simpa [analyze_registers] using h

theorem stateSpec_wsr_false {reads writes : List (Nat × Nat)} {st : RegState}
    (h : stateSpec reads writes = some st) (hw : st.write_since_read = false) :
    st.last_read.isSome = true := by
  unfold stateSpec at h
  rcases hl : reads.getLast? with _ | p
  · rw [hl] at h
    by_cases he : writes.isEmpty
    · rw [if_pos he] at h
      cases h
    · rw [if_neg he] at h
      cases h
      cases hw
  · rw [hl] at h
    cases h
    rfl

theorem dcSpecIndexed_old_isSome {es : List Entry} {r : DCRec}
    (h : r ∈ dcSpecIndexed es) : r.old_value.isSome = true := by
  rw [dcSpecIndexed, traceMap_mem] at h
  obtain ⟨j, e, hj, he, hf⟩ := h
  split at hf
  · rcases hsel : idxSel (es.take j) with _ | k
    · rw [hsel] at hf
      cases hf
    · rw [hsel] at hf
      dsimp only at hf
      rcases hlast : (indexedReads (es.take j) k).getLast? with _ | p
      · rw [hlast] at hf
        cases hf
      · rw [hlast] at hf
        dsimp only at hf
        by_cases hc : ((indexedWrites (es.take j) k).all (fun q => decide (q.1 ≤ p.1))) = true
            ∧ ¬p.2 = e.value
        · rw [if_pos hc] at hf
          cases hf
          rfl
        · rw [if_neg hc] at hf
          cases hf
  · cases hf

theorem dcSpecDirect_old_isSome {es : List Entry} {r : DCRec}
    (h : r ∈ dcSpecDirect es) : r.old_value.isSome = true := by
  rw [dcSpecDirect, traceMap_mem] at h
  obtain ⟨j, e, hj, he, hf⟩ := h
  split at hf
  · rcases hlast : (directReads (es.take j) e.offset).getLast? with _ | p
    · rw [hlast] at hf
      cases hf
    · rw [hlast] at hf
      dsimp only at hf
      by_cases hc : ((directWrites (es.take j) e.offset).all (fun q => decide (q.1 ≤ p.1))) = true
          ∧ ¬p.2 = e.value
      · rw [if_pos hc] at hf
        cases hf
        rfl
      · rw [if_neg hc] at hf
        cases hf
  · cases hf

theorem rbwSpecIndexed_keys_nodup (pre : List Entry) :
    ((rbwSpecIndexed pre).map (fun r => r.key)).Nodup := by
  induction pre using List.reverseRecOn with
  | nil => exact List.nodup_nil
  | append_singleton pre e ih =>
    rw [rbwSpecIndexed_append, List.map_append]
    by_cases hc : e.op = "Read" ∧ e.offset = 4
    · rw [if_pos hc]
      rcases hsel : idxSel pre with _ | k
      · simpa using ih
      · dsimp only
        by_cases h2 : (indexedReads pre k).isEmpty = true ∧ (indexedWrites pre k).isEmpty = true
        · rw [if_pos h2]
          have hknotin : ¬k ∈ (rbwSpecIndexed pre).map (fun r => r.key) := by
            intro hmem
            rw [List.mem_map] at hmem
            obtain ⟨r, hr, hkey⟩ := hmem
            have hany : (rbwSpecIndexed pre).any (fun r => r.key == k) = true := by
              rw [List.any_eq_true]
              exact ⟨r, hr, by simp [hkey]⟩
            exact (rbwSpecIndexed_any_key hany) (by simpa using h2.1)
          simp only [List.map_cons, List.map_nil]
          rw [List.nodup_append]
          exact ⟨ih, List.nodup_singleton k, by simpa using hknotin⟩
        · rw [if_neg h2]
          simpa using ih
    · rw [if_neg hc]
      simpa using ih

theorem rbwSpecDirect_keys_nodup (pre : List Entry) :
    ((rbwSpecDirect pre).map (fun r => r.key)).Nodup := by
  induction pre using List.reverseRecOn with
  | nil => exact List.nodup_nil
  | append_singleton pre e ih =>
    rw [rbwSpecDirect_append, List.map_append]
    by_cases hc : e.op = "Read" ∧ ¬e.offset = 0 ∧ ¬e.offset = 4
    · rw [if_pos hc]
      by_cases h2 : (directReads pre e.offset).isEmpty = true ∧ (directWrites pre e.offset).isEmpty = true
      · rw [if_pos h2]
        have hknotin : ¬e.offset ∈ (rbwSpecDirect pre).map (fun r => r.key) := by
          intro hmem
          rw [List.mem_map] at hmem
          obtain ⟨r, hr, hkey⟩ := hmem
          have hany : (rbwSpecDirect pre).any (fun r => r.key == e.offset) = true := by
            rw [List.any_eq_true]
            exact ⟨r, hr, by simp [hkey]⟩
          exact (rbwSpecDirect_any_key hany) (by simpa using h2.1)
        simp only [List.map_cons, List.map_nil]
        rw [List.nodup_append]
        exact ⟨ih, List.nodup_singleton _, by simpa using hknotin⟩
      · rw [if_neg h2]
        simpa using ih
    · rw [if_neg hc]
      simpa using ih

/-! ### Claims about `analyze_registers` -/

/-- C2.  For every event sequence the device-controlled records of both
schemes are exactly the `dcSpec` lists: for each key, a record with old
value `v1` and new value `v2` is emitted precisely at a read of that key
(the next read of the key after the one that saw `v1`) whose value `v2`
differs from `v1`, provided no write to that key lies between the two
reads; writes to other keys in between do not suppress the record. -/
theorem c2_device_controlled_exact (es : List Entry) :
    (analyze_registers es).dc_indexed = dcSpecIndexed es ∧
    (analyze_registers es).dc_direct = dcSpecDirect es :=
  ⟨(analyzeRegs_inv es).di, (analyzeRegs_inv es).dd⟩

/-- C3.  For every event sequence the read-before-write records of both
schemes are exactly the `rbwSpec` lists — a record for key `K` exists iff
the first read of `K` is preceded by no write to `K`, and it carries that
first read's value and line — and each list has pairwise distinct keys,
so at most one record exists per key. -/
theorem c3_read_before_write_exact (es : List Entry) :
    (analyze_registers es).rbw_indexed = rbwSpecIndexed es ∧
    (analyze_registers es).rbw_direct = rbwSpecDirect es ∧
    ((analyze_registers es).rbw_indexed.map (fun r => r.key)).Nodup ∧
    ((analyze_registers es).rbw_direct.map (fun r => r.key)).Nodup := by
  refine ⟨(analyzeRegs_inv es).ri, (analyzeRegs_inv es).rd, ?_, ?_⟩
  · rw [(analyzeRegs_inv es).ri]
    exact rbwSpecIndexed_keys_nodup es
  · rw [(analyzeRegs_inv es).rd]
    exact rbwSpecDirect_keys_nodup es

/-- C6, counterexample.  The claim says the lists exposed by the analyzer
are sorted by key; on the trace `Read 0x10; Read 0x8` the analyzer's
direct read-before-write list carries keys `[0x10, 0x8]`, in first-read
order, not ascending key order. -/
theorem c6_analyzer_lists_sorted_claim_false :
    ¬ ((((analyze_registers [⟨"Read", 16, 1, 4⟩, ⟨"Read", 8, 2, 4⟩]).rbw_indexed.map
          (fun r => r.key)).Sorted (· ≤ ·)) ∧
       (((analyze_registers [⟨"Read", 16, 1, 4⟩, ⟨"Read", 8, 2, 4⟩]).rbw_direct.map
          (fun r => r.key)).Sorted (· ≤ ·))) := by
  decide

/-- C6, amended.  The analyzer exposes the two read-before-write lists in
first-read order; it is the report writer that sorts each list by key
(`sortRbwByKey`, the `sorted(..., key=...)` call), and for every event
sequence those report lists are ascending in key and are a permutation of
the analyzer's lists. -/
theorem c6_report_lists_sorted (es : List Entry) :
    ((sortRbwByKey (analyze_registers es).rbw_indexed).map (fun r => r.key)).Sorted (· ≤ ·) ∧
    ((sortRbwByKey (analyze_registers es).rbw_direct).map (fun r => r.key)).Sorted (· ≤ ·) ∧
    (sortRbwByKey (analyze_registers es).rbw_indexed).Perm (analyze_registers es).rbw_indexed ∧
    (sortRbwByKey (analyze_registers es).rbw_direct).Perm (analyze_registers es).rbw_direct := by
  have hsort : ∀ l : List RBWRec, ((sortRbwByKey l).map (fun r => r.key)).Sorted (· ≤ ·) := by
    intro l
    have hp : List.Pairwise (fun a b : RBWRec => (decide (a.key ≤ b.key)) = true)
        (sortRbwByKey l) :=
      List.sorted_mergeSort
        (fun a b c hab hbc => by
          simp only [decide_eq_true_eq] at hab hbc ⊢
          omega)
        (fun a b => by
          rcases Nat.le_total a.key b.key with hab | hba
          · simp [hab]
          · simp [hba])
        l
    rw [List.Sorted, List.pairwise_map]
    exact hp.imp (fun hab => by simpa using hab)
  exact ⟨hsort _, hsort _, List.mergeSort_perm _ _, List.mergeSort_perm _ _⟩

/-- C10.  Invariant of the classification pass: after any prefix of the
trace, a tracking-state entry (indexed or direct) whose
`write_since_read` flag is false always has a present `last_read` value,
and consequently every emitted device-controlled record carries a present
old value. -/
theorem c10_state_flag_invariant (es : List Entry) (n k : Nat) (st : RegState)
    (hst : (analyze_registers (es.take n)).indexed_state k = some st ∨
           (analyze_registers (es.take n)).direct_state k = some st)
    (hw : st.write_since_read = false) :
    st.last_read.isSome = true ∧
    (∀ r ∈ (analyze_registers es).dc_indexed, r.old_value.isSome = true) ∧
    (∀ r ∈ (analyze_registers es).dc_direct, r.old_value.isSome = true) := by
  refine ⟨?_, ?_, ?_⟩
  · rcases hst with hst | hst
    · rw [(analyzeRegs_inv (es.take n)).si k] at hst
      exact stateSpec_wsr_false hst hw
    · rw [(analyzeRegs_inv (es.take n)).sd k] at hst
      exact stateSpec_wsr_false hst hw
  · intro r hr
    rw [(analyzeRegs_inv es).di] at hr
    exact dcSpecIndexed_old_isSome hr
  · intro r hr
    rw [(analyzeRegs_inv es).dd] at hr
    exact dcSpecDirect_old_isSome hr

/-- Witness for C10 at a concrete input: after the one-event trace
`Read 0x8 0x1`, the direct state at key `0x8` is `⟨some 1, false⟩`, whose
`write_since_read` flag is false and whose `last_read` is present. -/
theorem c10_state_flag_invariant_witness :
    ((analyze_registers (([⟨"Read", 8, 1, 4⟩] : List Entry).take 1)).direct_state 8 =
        some ⟨some 1, false⟩) ∧
    ((⟨some 1, false⟩ : RegState).last_read.isSome = true ∧
     (∀ r ∈ (analyze_registers [⟨"Read", 8, 1, 4⟩]).dc_indexed, r.old_value.isSome = true) ∧
     (∀ r ∈ (analyze_registers [⟨"Read", 8, 1, 4⟩]).dc_direct, r.old_value.isSome = true)) :=
  ⟨by decide,
   c10_state_flag_invariant [⟨"Read", 8, 1, 4⟩] 1 8 ⟨some 1, false⟩ (Or.inr (by decide)) rfl⟩

/-! ### Claims about the normalizer `parse_log` -/

theorem parseLogAux_eq_filterMap (lines : List (List Char)) :
    parseLogAux lines = lines.filterMap parseLine := by
  induction lines with
  | nil => rfl
  | cons line rest ih =>
    rw [parseLogAux, List.filterMap_cons]
    cases parseLine line <;> simp [ih]

theorem parseLine_inv {line : List Char} {e : Entry} (h : parseLine line = some e) :
    ∃ o v l rest, pyTokens line = e.op.toList :: o :: v :: l :: rest ∧
      pyIntHex o = some e.offset ∧ pyIntHex v = some e.value ∧ pyIntHex l = some e.length := by
  by_cases hskip : "Operation".toList.isPrefixOf line ∨ "----".toList.isPrefixOf line ∨
      pyStrip line = []
  · rw [parseLine, if_pos hskip] at h
    cases h
  · rw [parseLine, if_neg hskip] at h
    rcases htok : pyTokens line with _ | ⟨op, tl1⟩
    · rw [htok] at h
      cases h
    · rcases tl1 with _ | ⟨o, tl2⟩
      · rw [htok] at h
        cases h
      · rcases tl2 with _ | ⟨v, tl3⟩
        · rw [htok] at h
          cases h
        · rcases tl3 with _ | ⟨l, rest⟩
          · rw [htok] at h
            cases h
          · rw [htok] at h
            dsimp only at h
            rcases ho : pyIntHex o with _ | ov
            · rw [ho] at h
              cases h
            · rcases hv : pyIntHex v with _ | vv
              · rw [ho, hv] at h
                cases h
              · rcases hl : pyIntHex l with _ | lv
                · rw [ho, hv, hl] at h
                  cases h
                · rw [ho, hv, hl] at h
                  dsimp only at h
                  cases h
                  exact ⟨o, v, l, rest, rfl, ho, hv, hl⟩

/-- C7, counterexample.  The claim says every emitted event has operation
keyword exactly `Read` or `Write`; but `parse_log` never validates the
first token: the line `Foo 1 2 3` yields an event with operation `Foo`. -/
theorem c7_op_validated_claim_false :
    ¬(∀ e ∈ parse_log "Foo 1 2 3", e.op = "Read" ∨ e.op = "Write") := by
  decide

/-- C7, amended.  The normalizer is total (skipped lines are silently
dropped, never an error): its output is exactly the in-order `filterMap`
of the per-line extractor over the input's lines, so emitted events
preserve original line order and a line is skipped precisely when
`parseLine` rejects it (header/dashed/blank line, fewer than four fields,
or a numeric field that fails to parse).  Every emitted event's operation
field is the line's first whitespace-separated token — it is not
validated to be `Read` or `Write` — followed by three fields parsed as
numbers. -/
theorem c7_parse_log_normalizes (text : String) :
    parse_log text = (pySplitLines (pyStrip text.toList)).filterMap parseLine ∧
    ∀ e ∈ parse_log text, ∃ line ∈ pySplitLines (pyStrip text.toList),
      parseLine line = some e ∧
      ∃ o v l rest, pyTokens line = e.op.toList :: o :: v :: l :: rest ∧
        pyIntHex o = some e.offset ∧ pyIntHex v = some e.value ∧ pyIntHex l = some e.length := by
  constructor
  · exact parseLogAux_eq_filterMap _
  · intro e he
    rw [parse_log, parseLogAux_eq_filterMap, List.mem_filterMap] at he
    obtain ⟨line, hline, hparse⟩ := he
    exact ⟨line, hline, hparse, parseLine_inv hparse⟩

/-- Witness for C7 at a concrete input: the single line `Read 0 1 4`
yields the event `⟨Read, 0, 1, 4⟩`, which the theorem traces back to its
source line and tokens. -/
theorem c7_parse_log_normalizes_witness :
    (⟨"Read", 0, 1, 4⟩ : Entry) ∈ parse_log "Read 0 1 4" ∧
    ∃ line ∈ pySplitLines (pyStrip ("Read 0 1 4" : String).toList),
      parseLine line = some ⟨"Read", 0, 1, 4⟩ ∧
      ∃ o v l rest, pyTokens line = (⟨"Read", 0, 1, 4⟩ : Entry).op.toList :: o :: v :: l :: rest ∧
        pyIntHex o = some 0 ∧ pyIntHex v = some 1 ∧ pyIntHex l = some 4 :=
  ⟨by decide, (c7_parse_log_normalizes "Read 0 1 4").2 ⟨"Read", 0, 1, 4⟩ (by decide)⟩
